import Mathlib

/-!
# Verification of the nanopolish anchor-construction subsystem

Shallow embedding of `src/nanopolish_anchor.cpp` (functions
`match_read_to_reference_anchors` and `build_input_for_region`) and proofs
about the claims of the specification.

Conventions of the embedding:
* C machine integers (`int`) are modelled as `Int`; no arithmetic in the
  embedded code paths comes near the 32-bit overflow boundary under the
  hypotheses of the theorems, so no wraparound is modelled.
* C++ `%` on `int` is truncated remainder, Lean's `Int.emod` is Euclidean;
  the embedded guard only tests `% stride == 0`, and "remainder is zero" is
  the same predicate (divisibility) for both conventions, so `Int.emod` is
  used.  C++ `/` on nonnegative `int` is `Int.tdiv`.
* `std::vector<T> v(n, x)` is `List.replicate n x`; `v[i] = x` on an index
  that the source guards by an `assert(i < size)` is `List.set` (which is a
  no-op out of range, matching the fact that the assert never fires).
* strings are `List Char`; fallible operations (assertion failures,
  `std::string::substr` throwing, out-of-range `std::vector` indexing which
  is undefined behaviour) return `Option` and propagate `none`.
-/

set_option maxHeartbeats 1600000
set_option synthInstance.maxSize 2048

namespace Nanopolish

/-! ## Small list lemmas used throughout -/

theorem getD_set_self {α : Type} : ∀ (l : List α) (i : Nat) (a d : α),
    i < l.length → (l.set i a).getD i d = a := by
  intro l
  induction l with
  | nil => intro i a d h; simp at h
  | cons x xs ih =>
    intro i a d h
    cases i with
    | zero => rfl
    | succ n =>
      simp only [List.set, List.getD, List.get?]
      have : n < xs.length := by simpa using h
      exact ih n a d this

theorem getD_set_ne {α : Type} : ∀ (l : List α) (i j : Nat) (a d : α),
    i ≠ j → (l.set i a).getD j d = l.getD j d := by
  intro l
  induction l with
  | nil => intro i j a d _; simp [List.set]
  | cons x xs ih =>
    intro i j a d hne
    cases i with
    | zero =>
      cases j with
      | zero => exact absurd rfl hne
      | succ m => rfl
    | succ n =>
      cases j with
      | zero => rfl
      | succ m =>
        simp only [List.set, List.getD, List.get?]
        exact ih n m a d (fun h => hne (by rw [h]))

theorem getD_replicate {α : Type} : ∀ (n i : Nat) (d : α),
    (List.replicate n d).getD i d = d := by
  intro n
  induction n with
  | zero => intro i d; simp [List.getD]
  | succ m ih =>
    intro i d
    cases i with
    | zero => rfl
    | succ k => exact ih k d

theorem set_of_length_le {α : Type} : ∀ (l : List α) (i : Nat) (a : α),
    l.length ≤ i → l.set i a = l := by
  intro l
  induction l with
  | nil => intro i a _; cases i <;> rfl
  | cons x xs ih =>
    intro i a h
    cases i with
    | zero => simp at h
    | succ n =>
      simp only [List.set]
      rw [ih n a (by simpa using h)]

theorem getD_of_length_le {α : Type} : ∀ (l : List α) (i : Nat) (d : α),
    l.length ≤ i → l.getD i d = d := by
  intro l
  induction l with
  | nil => intro i d _; simp [List.getD]
  | cons x xs ih =>
    intro i d h
    cases i with
    | zero => simp at h
    | succ n => exact ih n d (by simpa using h)

/-- Padding a list with copies of the default value does not change any
`getD` lookup at that default. -/
theorem getD_append_replicate {α : Type} : ∀ (l : List α) (k i : Nat) (d : α),
    (l ++ List.replicate k d).getD i d = l.getD i d := by
  intro l
  induction l with
  | nil =>
    intro k i d
    simp only [List.nil_append, List.getD]
    cases h : (List.replicate k d).get? i with
    | none => rfl
    | some a =>
      have ha : a = d := by
        have := List.get?_mem h
        exact List.eq_of_mem_replicate this
      simp [h, ha]
  | cons x xs ih =>
    intro k i d
    cases i with
    | zero => rfl
    | succ n => exact ih k n d

theorem mem_of_getD_ne {α : Type} : ∀ (l : List α) (i : Nat) (d : α),
    l.getD i d ≠ d → l.getD i d ∈ l := by
  intro l
  induction l with
  | nil => intro i d h; simp [List.getD] at h
  | cons x xs ih =>
    intro i d h
    cases i with
    | zero => simp [List.getD]
    | succ n =>
      have := ih n d h
      simp only [List.getD, List.get?] at *
      exact List.mem_cons_of_mem _ this

/-! ## The Cigar Walker: `match_read_to_reference_anchors`

Source: `src/nanopolish_anchor.cpp`, lines 194-257. -/

/-- BAM cigar operation codes (htslib `BAM_C*` constants 0-8). -/
inductive CigarOp : Type
  | M   -- BAM_CMATCH (0)
  | I   -- BAM_CINS (1)
  | D   -- BAM_CDEL (2)
  | N   -- BAM_CREF_SKIP (3)
  | S   -- BAM_CSOFT_CLIP (4)
  | H   -- BAM_CHARD_CLIP (5)
  | P   -- BAM_CPAD (6)
  | Eq  -- BAM_CEQUAL (7)
  | X   -- BAM_CDIFF (8)
  deriving DecidableEq, Repr

/-- Lines 225-241: the `(read_inc, ref_inc)` pair chosen for each cigar
operation class; `none` is the `assert(false && "Unhandled cigar operation")`
branch (reached for `BAM_CPAD`). -/
def cigarIncs : CigarOp → Option (Int × Int)
  | .M | .Eq | .X => some (1, 1)
  | .D | .N => some (0, 1)
  | .I | .S => some (1, 0)
  | .H => some (1, 0)
  | .P => none

/-- Lines 245-249: one unit step of the walk.  If the reference cursor is in
`[rstart, rend]`, is a multiple of `stride` (note: the absolute position, the
source tests `ref_pos % stride == 0`), and the current operation advances the
reference (`ref_inc > 0`), record the read cursor at slot
`(ref_pos - rstart) / stride`.  The source asserts the slot is in range;
`List.set` is a no-op out of range. -/
def recordAnchor (rstart rend stride ref_inc read_pos ref_pos : Int)
    (out : List Int) : List Int :=
  if rstart ≤ ref_pos ∧ ref_pos ≤ rend ∧ ref_pos % stride = 0 ∧ 0 < ref_inc then
    out.set ((ref_pos - rstart).tdiv stride).toNat read_pos
  else out

/-- Lines 244-254: the inner loop over the `cigar_len` aligned base pairs of
one cigar operation.  Returns the updated `(read_pos, ref_pos, out)`. -/
def runCigarLen (read_inc ref_inc rstart rend stride : Int) :
    Nat → Int → Int → List Int → Int × Int × List Int
  | 0, read_pos, ref_pos, out => (read_pos, ref_pos, out)
  | n + 1, read_pos, ref_pos, out =>
      runCigarLen read_inc ref_inc rstart rend stride n
        (read_pos + read_inc) (ref_pos + ref_inc)
        (recordAnchor rstart rend stride ref_inc read_pos ref_pos out)

/-- Lines 218-255: the outer loop over cigar operations, stopping once
`ref_pos > end`; an unhandled operation aborts (`none`). -/
def walkCigar (rstart rend stride : Int) :
    List (CigarOp × Nat) → Int → Int → List Int → Option (List Int)
  | [], _, _, out => some out
  | (op, len) :: rest, read_pos, ref_pos, out =>
      if ref_pos ≤ rend then
        match cigarIncs op with
        | none => none
        | some (read_inc, ref_inc) =>
            let s := runCigarLen read_inc ref_inc rstart rend stride len
              read_pos ref_pos out
            walkCigar rstart rend stride rest s.1 s.2.1 s.2.2
      else some out

/-- Line 198: `uint32_t num_anchors = ((end - start) / stride) + 1;`
(C truncated division; the cast to `uint32_t` is the identity for the
in-range values the claims quantify over). -/
def numAnchors (rstart rend stride : Int) : Nat :=
  ((rend - rstart).tdiv stride + 1).toNat

/-- Lines 194-257: `match_read_to_reference_anchors(record, start, end,
stride)`.  `pos` is `record->core.pos`, `cigar` the record's cigar
operations; the output vector is seeded with `-1` ("unmapped"). -/
def match_read_to_reference_anchors (pos : Int) (cigar : List (CigarOp × Nat))
    (rstart rend stride : Int) : Option (List Int) :=
  walkCigar rstart rend stride cigar 0 pos
    (List.replicate (numAnchors rstart rend stride) (-1))

/-! ## The Event Anchor Mapper (lines 62-137 of `build_input_for_region`)

The `SquiggleRead` collaborator (`nanopolish_squiggle_read.h`, not part of
the sampled source) is abstracted by its base sequence and its two
nearest-event lookup functions (`get_closest_event_to(k, T_IDX)` and
`get_closest_event_to(k, C_IDX)`). -/

structure SquiggleRead : Type where
  read_sequence : List Char
  closest_event_T : Int → Int
  closest_event_C : Int → Int

/-- Modelled from the spec: the signal-read repository's
`flip_coordinate(read_handle, base_coordinate) → mirrored_coordinate` for the
opposite physical read direction (`SquiggleRead::flip_k_strand`, declared in
`nanopolish_squiggle_read.h`, which is not under `src/`).  A k-mer starting at
`k` on one strand mirrors to the k-mer starting at `read_length - K - k` on
the other, which satisfies the spec's round-trip law `flip (flip k) = k`. -/
def flip_k_strand (sr : SquiggleRead) (K : Nat) (k : Int) : Int :=
  (sr.read_sequence.length : Int) - (K : Int) - k

/-- Modelled from the spec: Watson-Crick complement of one base, used by
`reverse_complement` (declared in `nanopolish_common.h`, not under `src/`). -/
def complement_base : Char → Char
  | 'A' => 'T'
  | 'T' => 'A'
  | 'C' => 'G'
  | 'G' => 'C'
  | c => c

/-- Modelled from the spec: `reverse_complement(s)` (declared in
`nanopolish_common.h`, not under `src/`): the reversed sequence of
complemented bases, expressing a sequence in the opposite orientation. -/
def reverse_complement (s : List Char) : List Char :=
  (s.reverse).map complement_base

/-- C++ `std::string::substr(pos, count)` where `pos` is nonnegative and
`count` is an `int` converted to `size_t`: throws (`none`) when `pos`
exceeds the length; a negative `count` wraps to a huge `size_t` and is
clamped, yielding the whole suffix. -/
def substrCpp (s : List Char) (pos count : Int) : Option (List Char) :=
  if pos ≤ (s.length : Int) then
    some ((s.drop pos.toNat).take (if count < 0 then s.length else count.toNat))
  else none

/-- Lines 92-93: the base coordinate actually used for event lookup — flipped
to the other strand when the read is reverse-complement aligned. -/
def lookupCoord (sr : SquiggleRead) (K : Nat) (do_base_rc : Bool) (k : Int) : Int :=
  if do_base_rc then flip_k_strand sr K k else k

/-- Lines 104-128: extraction of the alternative sequence spanning one anchor
interval, given the unflipped base coordinates at its two ends: flip-and-swap
when reverse aligned, clamp (`start` from below by `0`, `end` from above by
`read_length - K`), take the substring of length `end - start + K`, and
reverse-complement the result when reverse aligned. -/
def altSubstring (sr : SquiggleRead) (K : Nat) (do_base_rc : Bool)
    (start_kidx0 end_kidx0 : Int) : Option (List Char) :=
  let max_kidx : Int := (sr.read_sequence.length : Int) - (K : Int)
  let p : Int × Int :=
    if do_base_rc then
      (flip_k_strand sr K end_kidx0, flip_k_strand sr K start_kidx0)
    else (start_kidx0, end_kidx0)
  let start_kidx : Int := if p.1 ≥ 0 then p.1 else 0
  let end_kidx : Int := if p.2 ≤ max_kidx then p.2 else max_kidx
  match substrCpp sr.read_sequence start_kidx (end_kidx - start_kidx + (K : Int)) with
  | none => none
  | some s => some (if do_base_rc then reverse_complement s else s)

/-- Lines 130-133: `read_substrings.resize(ai + 1)` when `ai` is out of range,
then `read_substrings[ai].push_back(s)`. -/
def pushAt (subs : List (List (List Char))) (ai : Nat) (s : List Char) :
    List (List (List Char)) :=
  let subs1 := if subs.length ≤ ai then subs ++ List.replicate (ai + 1 - subs.length) []
               else subs
  subs1.set ai (subs1.getD ai [] ++ [s])

/-- One anchor as stored in `HMMReadAnchorSet.strand_anchors`
(`nanopolish_anchor.h`): `none` is the default-constructed "unset" anchor
left by `resize`, `some (event_index, rc_flag)` a written one. -/
abbrev StrandAnchor := Option (Int × Bool)

/-- Lines 83-135: the loop of the Event Anchor Mapper over anchor positions
`ai`, structurally recursing on the remaining fuel `rem` (invoked with
`rem = bases.length`, so the fuel never runs out before `ai < bases.length`
fails).  State: the two per-strand anchor vectors of this read and the
region-wide `read_substrings` table.  `none` models the assertion
`template_idx != -1 && complement_idx != -1` failing or `substr` throwing. -/
def mapReadFrom (sr : SquiggleRead) (K : Nat) (do_base_rc : Bool)
    (bases : List Int) :
    Nat → Nat → List StrandAnchor → List StrandAnchor →
    List (List (List Char)) →
    Option (List StrandAnchor × List StrandAnchor × List (List (List Char)))
  | 0, _, tA, cA, subs => some (tA, cA, subs)
  | rem + 1, ai, tA, cA, subs =>
      if ai < bases.length then
        let read_kidx0 := bases.getD ai 0
        if read_kidx0 = -1 then
          mapReadFrom sr K do_base_rc bases rem (ai + 1) tA cA subs
        else
          let read_kidx := lookupCoord sr K do_base_rc read_kidx0
          let template_idx := sr.closest_event_T read_kidx
          let complement_idx := sr.closest_event_C read_kidx
          if template_idx = -1 ∨ complement_idx = -1 then none
          else
            let tA1 := tA.set ai (some (template_idx, do_base_rc))
            let cA1 := cA.set ai (some (complement_idx, !do_base_rc))
            if ai < bases.length - 1 then
              match altSubstring sr K do_base_rc (bases.getD ai 0)
                  (bases.getD (ai + 1) 0) with
              | none => none
              | some s =>
                  mapReadFrom sr K do_base_rc bases rem (ai + 1) tA1 cA1
                    (pushAt subs ai s)
            else
              mapReadFrom sr K do_base_rc bases rem (ai + 1) tA1 cA1 subs
      else some (tA, cA, subs)

/-- Lines 74-135: run the Event Anchor Mapper for one read over the whole
anchor vector; the two strand-anchor vectors start out `resize`d to the
anchor count with default ("unset") anchors. -/
def mapRead (sr : SquiggleRead) (K : Nat) (do_base_rc : Bool)
    (bases : List Int) (subs : List (List (List Char))) :
    Option (List StrandAnchor × List StrandAnchor × List (List (List Char))) :=
  mapReadFrom sr K do_base_rc bases bases.length 0
    (List.replicate bases.length none) (List.replicate bases.length none) subs

/-! ## The Column Transposer and Region Input Builder (lines 18-192) -/

/-- One alignment record as consumed by the builder: the squiggle read loaded
for it (name-map lookup abstracted), `record->core.pos`, the cigar
operations, and `bam_is_rev(record)`. -/
structure BamRecord : Type where
  sr : SquiggleRead
  pos : Int
  cigar : List (CigarOp × Nat)
  is_rev : Bool

/-- `HMMReadAnchorSet` (`nanopolish_anchor.h`): the two parallel per-strand
anchor vectors (`strand_anchors[T_IDX]` / `strand_anchors[C_IDX]`). -/
structure HMMReadAnchorSet : Type where
  t_anchors : List StrandAnchor
  c_anchors : List StrandAnchor
  deriving DecidableEq

/-- `HMMAnchoredColumn` (`nanopolish_anchor.h`): cross-read anchors, the
reference sub-sequence, and the alternative sequences for the interval. -/
structure HMMAnchoredColumn : Type where
  anchors : List StrandAnchor
  base_sequence : List Char
  alt_sequences : List (List Char)
  deriving DecidableEq

/-- `HMMRealignmentInput` (`nanopolish_anchor.h`): the loaded reads and the
anchored columns. -/
structure HMMRealignmentInput : Type where
  reads : List SquiggleRead
  anchored_columns : List HMMAnchoredColumn

/-- Lines 60-138: the per-read loop — run the Cigar Walker then the Event
Anchor Mapper for every overlapping record, accumulating the loaded reads,
the per-read anchor sets and the shared `read_substrings` table. -/
def processRecords (K : Nat) (rstart rend stride : Int) :
    List BamRecord → List SquiggleRead → List HMMReadAnchorSet →
    List (List (List Char)) →
    Option (List SquiggleRead × List HMMReadAnchorSet × List (List (List Char)))
  | [], reads, ras, subs => some (reads, ras, subs)
  | rec :: rest, reads, ras, subs =>
      match match_read_to_reference_anchors rec.pos rec.cigar rstart rend stride with
      | none => none
      | some bases =>
          match mapRead rec.sr K rec.is_rev bases subs with
          | none => none
          | some (tA, cA, subs1) =>
              processRecords K rstart rend stride rest (reads ++ [rec.sr])
                (ras ++ [⟨tA, cA⟩]) subs1

/-- Lines 156-163: one column's cross-read anchor list — visit reads in
processing order, appending the template-strand anchor then the
complement-strand anchor of each (the source asserts `ai` is in range for
both vectors; out of range is `none`). -/
def columnAnchors : List HMMReadAnchorSet → Nat → Option (List StrandAnchor)
  | [], _ => some []
  | ras :: rest, ai =>
      match ras.t_anchors.get? ai, ras.c_anchors.get? ai with
      | some t, some c =>
          (columnAnchors rest ai).map (fun l => t :: c :: l)
      | _, _ => none

/-- Lines 152-179: build the column at index `ai`.  For every column but the
last, the reference sub-sequence of length `stride + K` (truncated at the
fetched segment's end) starting at offset `ai * stride` is attached, and the
alternative sequences are read from `read_substrings[ai]` — an unchecked
`std::vector` index whose out-of-range access is undefined behaviour,
modelled as `none`. -/
def buildColumn (read_anchors : List HMMReadAnchorSet)
    (subs : List (List (List Char))) (ref_segment : List Char)
    (stride : Int) (K : Nat) (num_anchors ai : Nat) : Option HMMAnchoredColumn :=
  match columnAnchors read_anchors ai with
  | none => none
  | some anchors =>
      if ai ≠ num_anchors - 1 then
        let fetched_len : Int := (ref_segment.length : Int)
        let base_length0 : Int := stride + (K : Int)
        let base_length : Int :=
          if (ai : Int) * stride + base_length0 > fetched_len then
            fetched_len - (ai : Int) * stride
          else base_length0
        let base_seq := (ref_segment.drop ((ai : Int) * stride).toNat).take
          base_length.toNat
        match subs.get? ai with
        | none => none
        | some alts => some ⟨anchors, base_seq, alts⟩
      else some ⟨anchors, [], []⟩

/-- Lines 151-180: the column loop over the given anchor indices. -/
def buildColumnsAux (read_anchors : List HMMReadAnchorSet)
    (subs : List (List (List Char))) (ref_segment : List Char)
    (stride : Int) (K : Nat) (num_anchors : Nat) :
    List Nat → Option (List HMMAnchoredColumn)
  | [] => some []
  | ai :: rest =>
      match buildColumn read_anchors subs ref_segment stride K num_anchors ai with
      | none => none
      | some c =>
          match buildColumnsAux read_anchors subs ref_segment stride K
              num_anchors rest with
          | none => none
          | some cs => some (c :: cs)

/-- Lines 18-192: `build_input_for_region`.  BAM/faidx I/O is abstracted:
`records` is the sequence of overlapping alignment records the BAM iterator
yields (with their loaded squiggle reads) and `ref_segment` the reference
sub-sequence `faidx_fetch_seq` returns for `[rstart, rend]` (so
`fetched_len = ref_segment.length`).  `none` models any assertion failure:
`assert(!read_anchors.empty())` (line 143), the front/back anchor-count
check (lines 144-145), or undefined behaviour in the column loop. -/
def build_input_for_region (K : Nat) (records : List BamRecord)
    (ref_segment : List Char) (rstart rend stride : Int) :
    Option HMMRealignmentInput :=
  match processRecords K rstart rend stride records [] [] [] with
  | none => none
  | some (reads, read_anchors, subs) =>
      match read_anchors with
      | [] => none
      | first :: restAnchors =>
          let last := restAnchors.getLastD first
          if first.t_anchors.length = last.t_anchors.length then
            let num_anchors := first.t_anchors.length
            match buildColumnsAux (first :: restAnchors) subs ref_segment stride K
                num_anchors (List.range num_anchors) with
            | none => none
            | some cols => some ⟨reads, cols⟩
          else none

/-! ## Length facts about the Cigar Walker -/

theorem length_recordAnchor (rstart rend stride ref_inc read_pos ref_pos : Int)
    (out : List Int) :
    (recordAnchor rstart rend stride ref_inc read_pos ref_pos out).length =
      out.length := by
  unfold recordAnchor
  split
  · exact List.length_set ..
  · rfl

theorem length_runCigarLen (read_inc ref_inc rstart rend stride : Int) :
    ∀ (n : Nat) (read_pos ref_pos : Int) (out : List Int),
    ((runCigarLen read_inc ref_inc rstart rend stride n read_pos ref_pos out).2.2).length
      = out.length := by
  intro n
  induction n with
  | zero => intro read_pos ref_pos out; rfl
  | succ m ih =>
    intro read_pos ref_pos out
    rw [runCigarLen, ih, length_recordAnchor]

theorem length_walkCigar (rstart rend stride : Int) :
    ∀ (cigar : List (CigarOp × Nat)) (read_pos ref_pos : Int)
      (out out' : List Int),
    walkCigar rstart rend stride cigar read_pos ref_pos out = some out' →
    out'.length = out.length := by
  intro cigar
  induction cigar with
  | nil =>
    intro read_pos ref_pos out out' h
    simp only [walkCigar] at h
    injection h with h
    rw [← h]
  | cons hd rest ih =>
    intro read_pos ref_pos out out' h
    obtain ⟨op, len⟩ := hd
    rw [walkCigar] at h
    split at h
    · cases hop : cigarIncs op with
      | none => rw [hop] at h; exact absurd h (by simp)
      | some p =>
        obtain ⟨read_inc, ref_inc⟩ := p
        rw [hop] at h
        simp only at h
        have := ih _ _ _ _ h
        rw [this, length_runCigarLen]
    · injection h with h
      rw [← h]

theorem length_match_read (pos : Int) (cigar : List (CigarOp × Nat))
    (rstart rend stride : Int) (out : List Int)
    (h : match_read_to_reference_anchors pos cigar rstart rend stride = some out) :
    out.length = numAnchors rstart rend stride := by
  unfold match_read_to_reference_anchors at h
  have := length_walkCigar rstart rend stride cigar 0 pos _ _ h
  simpa using this

theorem numAnchors_eq_floor (rstart rend stride : Int)
    (h1 : rstart ≤ rend) (h2 : 0 < stride) :
    numAnchors rstart rend stride = (rend - rstart).toNat / stride.toNat + 1 := by
  unfold numAnchors
  have hd : 0 ≤ rend - rstart := by omega
  obtain ⟨dn, hdn⟩ : ∃ dn : Nat, rend - rstart = (dn : Int) :=
    ⟨(rend - rstart).toNat, (Int.toNat_of_nonneg hd).symm⟩
  obtain ⟨sn, hsn⟩ : ∃ sn : Nat, stride = (sn : Int) :=
    ⟨stride.toNat, (Int.toNat_of_nonneg (le_of_lt h2)).symm⟩
  rw [hdn, hsn]
  have e : ((dn : Int).tdiv (sn : Int)) = ((dn / sn : Nat) : Int) := rfl
  have e1 : ((dn : Int)).toNat = dn := rfl
  have e2 : ((sn : Int)).toNat = sn := rfl
  rw [e, e1, e2]
  generalize dn / sn = q
  omega

/-- **C4.**  For every alignment record and every valid region
(`region_start ≤ region_end`, `stride > 0`), the Cigar Walker's output
sequence has length exactly `⌊(region_end - region_start) / stride⌋ + 1`,
regardless of the record's edit operations. -/
theorem C4_walker_output_length (pos : Int) (cigar : List (CigarOp × Nat))
    (rstart rend stride : Int) (out : List Int)
    (h : match_read_to_reference_anchors pos cigar rstart rend stride = some out)
    (h1 : rstart ≤ rend) (h2 : 0 < stride) :
    out.length = (rend - rstart).toNat / stride.toNat + 1 := by
  rw [length_match_read pos cigar rstart rend stride out h,
    numAnchors_eq_floor rstart rend stride h1 h2]

theorem C4_witness :
    ([0, 1, 2] : List Int).length = ((2 : Int) - 0).toNat / (1 : Int).toNat + 1 :=
  C4_walker_output_length 0 [(CigarOp.M, 3)] 0 2 1 [0, 1, 2]
    (by decide) (by decide) (by decide)

/-! ## C1: the per-unit-step recording guard -/

/-- **C1 (counterexample).**  The claim states the read cursor is recorded
whenever the reference cursor lies in `[region_start, region_end]`,
`(ref_pos - region_start) mod stride = 0`, and the operation advances the
reference.  At the unit step with `region = [1, 3]`, `stride = 2`,
`ref_pos = 1`, `ref_inc = 1`, `read_pos = 5`, the claimed condition holds
(`(1 - 1) % 2 = 0`), yet the source records nothing: it tests the absolute
position `ref_pos % stride == 0` (`1 % 2 ≠ 0`), so slot 0 stays `-1`
instead of becoming `5`. -/
theorem C1_counterexample :
    ((1 : Int) - 1) % 2 = 0 ∧ (1 : Int) ≤ 1 ∧ (1 : Int) ≤ 3 ∧ (0 : Int) < 1 ∧
    recordAnchor 1 3 2 1 5 1 [-1, -1] = [-1, -1] := by decide

/-- **C1 (amended).**  For every unit step of the edit-operation walk, the
current read-base cursor is recorded at output slot
`(ref_pos - region_start) / stride` exactly when the reference cursor lies
within `[region_start, region_end]`, is an exact multiple of the stride in
absolute coordinates (`ref_pos mod stride = 0`, not relative to
`region_start`), and the current operation advances the reference cursor. -/
theorem C1_record_guard (rstart rend stride ref_inc read_pos ref_pos : Int)
    (out : List Int) (i : Nat) :
    (recordAnchor rstart rend stride ref_inc read_pos ref_pos out).getD i (-1) =
      if rstart ≤ ref_pos ∧ ref_pos ≤ rend ∧ ref_pos % stride = 0 ∧ 0 < ref_inc ∧
          i = ((ref_pos - rstart).tdiv stride).toNat ∧ i < out.length
      then read_pos
      else out.getD i (-1) := by
  unfold recordAnchor
  by_cases hg : rstart ≤ ref_pos ∧ ref_pos ≤ rend ∧ ref_pos % stride = 0 ∧ 0 < ref_inc
  · rw [if_pos hg]
    by_cases hi : i = ((ref_pos - rstart).tdiv stride).toNat
    · by_cases hlen : i < out.length
      · rw [if_pos ⟨hg.1, hg.2.1, hg.2.2.1, hg.2.2.2, hi, hlen⟩, ← hi,
          getD_set_self _ _ _ _ hlen]
      · rw [if_neg (by tauto), ← hi, set_of_length_le _ _ _ (by omega)]
    · rw [if_neg (by tauto), getD_set_ne _ _ _ _ _ (fun h => hi h.symm)]
  · rw [if_neg hg, if_neg (by tauto)]

/-! ## C3: clamping before substring extraction -/

/-- **C3 (counterexample).**  The claim states both interval end coordinates
are clamped into `[0, read_length - K]` so the extraction always stays in
bounds.  With an 8-base read, `K = 5` and coordinates `(20, 21)`, the start
is only clamped from below (it stays `20 > read_length`), and the
`substr(20, …)` call is out of range (`std::out_of_range`), modelled as
`none`. -/
theorem C3_counterexample :
    altSubstring ⟨['A', 'C', 'G', 'T', 'A', 'C', 'G', 'T'],
      fun _ => 0, fun _ => 0⟩ 5 false 20 21 = none := by decide

/-- **C3 (amended).**  Before extraction the start coordinate is clamped from
below to `0` and the end coordinate from above to `read_length - K` (neither
is clamped into the full range).  The substring extraction stays within the
read sequence's bounds whenever the (flip-swapped) start coordinate, after
its one-sided clamp, does not exceed the read length — in particular
whenever both coordinates already lie within `[0, read_length - K]`. -/
theorem C3_clamp_safety (sr : SquiggleRead) (K : Nat) (rc : Bool) (a b : Int)
    (h : max (if rc then flip_k_strand sr K b else a) 0 ≤
      (sr.read_sequence.length : Int)) :
    (altSubstring sr K rc a b).isSome = true := by
  unfold altSubstring substrCpp
  cases rc with
  | false =>
    simp only [Bool.false_eq_true, if_false]
    have hstart : (if a ≥ 0 then a else 0) ≤ (sr.read_sequence.length : Int) := by
      simp only [Bool.false_eq_true, if_false] at h
      rcases le_or_lt 0 a with ha | ha
      · rw [if_pos ha]; omega
      · rw [if_neg (by omega)]; omega
    rw [if_pos hstart]
    rfl
  | true =>
    simp only [if_true]
    have hstart : (if flip_k_strand sr K b ≥ 0 then flip_k_strand sr K b else 0) ≤
        (sr.read_sequence.length : Int) := by
      simp only [if_true] at h
      rcases le_or_lt 0 (flip_k_strand sr K b) with ha | ha
      · rw [if_pos ha]; omega
      · rw [if_neg (by omega)]; omega
    rw [if_pos hstart]
    rfl

theorem C3_witness :
    (altSubstring ⟨['A', 'C', 'G', 'T', 'A', 'C', 'G', 'T'],
      fun _ => 1, fun _ => 1⟩ 5 false 0 1).isSome = true :=
  C3_clamp_safety ⟨['A', 'C', 'G', 'T', 'A', 'C', 'G', 'T'],
    fun _ => 1, fun _ => 1⟩ 5 false 0 1 (by decide)

/-! ## Behaviour of the Event Anchor Mapper loop -/

theorem getD_set_gt {α : Type} (l : List α) (i j : Nat) (a d : α) (hj : i < j) :
    (l.set i a).getD j d = l.getD j d :=
  getD_set_ne _ _ _ _ _ (by omega)

theorem getD_set_lt {α : Type} (l : List α) (i j : Nat) (a d : α) (hj : j < i) :
    (l.set i a).getD j d = l.getD j d :=
  getD_set_ne _ _ _ _ _ (by omega)

theorem pushAt_getD (subs : List (List (List Char))) (ai : Nat) (s : List Char)
    (q : Nat) :
    (pushAt subs ai s).getD q [] =
      if q = ai then subs.getD ai [] ++ [s] else subs.getD q [] := by
  unfold pushAt
  have hbase : ∀ r, (if subs.length ≤ ai then
      subs ++ List.replicate (ai + 1 - subs.length) [] else subs).getD r [] =
      subs.getD r [] := by
    intro r
    split
    · exact getD_append_replicate subs _ r []
    · rfl
  have hlen : ai < (if subs.length ≤ ai then
      subs ++ List.replicate (ai + 1 - subs.length) [] else subs).length := by
    split
    · rw [List.length_append, List.length_replicate]; omega
    · omega
  by_cases hq : q = ai
  · subst hq
    rw [if_pos rfl, getD_set_self _ _ _ _ hlen, hbase]
  · rw [if_neg hq, getD_set_ne _ _ _ _ _ (fun h => hq h.symm), hbase]

theorem pushAt_length (subs : List (List (List Char))) (ai : Nat) (s : List Char) :
    (pushAt subs ai s).length =
      if subs.length ≤ ai then ai + 1 else subs.length := by
  unfold pushAt
  rw [List.length_set]
  split
  · rw [List.length_append, List.length_replicate]; omega
  · rfl

theorem mapReadFrom_length (sr : SquiggleRead) (K : Nat) (rc : Bool)
    (bases : List Int) :
    ∀ (rem ai : Nat) (tA cA : List StrandAnchor) (subs : List (List (List Char)))
      (tA' cA' : List StrandAnchor) (subs' : List (List (List Char))),
    mapReadFrom sr K rc bases rem ai tA cA subs = some (tA', cA', subs') →
    tA'.length = tA.length ∧ cA'.length = cA.length := by
  intro rem
  induction rem with
  | zero =>
    intro ai tA cA subs tA' cA' subs' h
    simp only [mapReadFrom] at h
    injection h with h
    injection h with h1 h
    injection h with h2 h3
    rw [← h1, ← h2]
    exact ⟨rfl, rfl⟩
  | succ m ih =>
    intro ai tA cA subs tA' cA' subs' h
    simp only [mapReadFrom] at h
    by_cases hai : ai < bases.length
    · rw [if_pos hai] at h
      by_cases hk : bases.getD ai 0 = -1
      · rw [if_pos hk] at h
        exact ih (ai + 1) tA cA subs tA' cA' subs' h
      · rw [if_neg hk] at h
        by_cases hev : sr.closest_event_T (lookupCoord sr K rc (bases.getD ai 0)) = -1 ∨
            sr.closest_event_C (lookupCoord sr K rc (bases.getD ai 0)) = -1
        · rw [if_pos hev] at h; exact absurd h (by simp)
        · rw [if_neg hev] at h
          by_cases hlast : ai < bases.length - 1
          · rw [if_pos hlast] at h
            cases halt : altSubstring sr K rc (bases.getD ai 0) (bases.getD (ai + 1) 0) with
            | none => rw [halt] at h; exact absurd h (by simp)
            | some s =>
              rw [halt] at h
              have := ih (ai + 1) _ _ _ tA' cA' subs' h
              simpa [List.length_set] using this
          · rw [if_neg hlast] at h
            have := ih (ai + 1) _ _ _ tA' cA' subs' h
            simpa [List.length_set] using this
    · rw [if_neg hai] at h
      injection h with h
      injection h with h1 h
      injection h with h2 h3
      rw [← h1, ← h2]
      exact ⟨rfl, rfl⟩

theorem mapReadFrom_anchors (sr : SquiggleRead) (K : Nat) (rc : Bool)
    (bases : List Int) :
    ∀ (rem ai : Nat) (tA cA : List StrandAnchor) (subs : List (List (List Char)))
      (tA' cA' : List StrandAnchor) (subs' : List (List (List Char))),
    mapReadFrom sr K rc bases rem ai tA cA subs = some (tA', cA', subs') →
    bases.length ≤ ai + rem →
    tA.length = bases.length → cA.length = bases.length →
    (∀ p, p < ai → tA'.getD p none = tA.getD p none ∧
      cA'.getD p none = cA.getD p none) ∧
    (∀ p, ai ≤ p → p < bases.length →
      (bases.getD p 0 = -1 → tA'.getD p none = tA.getD p none ∧
        cA'.getD p none = cA.getD p none) ∧
      (bases.getD p 0 ≠ -1 →
        tA'.getD p none =
          some (sr.closest_event_T (lookupCoord sr K rc (bases.getD p 0)), rc) ∧
        cA'.getD p none =
          some (sr.closest_event_C (lookupCoord sr K rc (bases.getD p 0)), !rc))) := by
  intro rem
  induction rem with
  | zero =>
    intro ai tA cA subs tA' cA' subs' h hrem htl hcl
    simp only [mapReadFrom] at h
    injection h with h
    injection h with h1 h
    injection h with h2 h3
    subst h1; subst h2
    exact ⟨fun p _ => ⟨rfl, rfl⟩, fun p hp hplen => absurd hplen (by omega)⟩
  | succ m ih =>
    intro ai tA cA subs tA' cA' subs' h hrem htl hcl
    simp only [mapReadFrom] at h
    by_cases hai : ai < bases.length
    · rw [if_pos hai] at h
      by_cases hk : bases.getD ai 0 = -1
      · rw [if_pos hk] at h
        have IH := ih (ai + 1) tA cA subs tA' cA' subs' h (by omega) htl hcl
        refine ⟨fun p hp => IH.1 p (by omega), fun p hp hplen => ?_⟩
        rcases Nat.eq_or_lt_of_le hp with hpe | hpl
        · exact ⟨fun _ => IH.1 p (by omega), fun hc => absurd (hpe ▸ hk) hc⟩
        · exact IH.2 p hpl hplen
      · rw [if_neg hk] at h
        by_cases hev : sr.closest_event_T (lookupCoord sr K rc (bases.getD ai 0)) = -1 ∨
            sr.closest_event_C (lookupCoord sr K rc (bases.getD ai 0)) = -1
        · rw [if_pos hev] at h; exact absurd h (by simp)
        · rw [if_neg hev] at h
          have hset : ∀ (tA1 cA1 : List StrandAnchor) subs1,
              tA1 = tA.set ai (some (sr.closest_event_T
                (lookupCoord sr K rc (bases.getD ai 0)), rc)) →
              cA1 = cA.set ai (some (sr.closest_event_C
                (lookupCoord sr K rc (bases.getD ai 0)), !rc)) →
              mapReadFrom sr K rc bases m (ai + 1) tA1 cA1 subs1 =
                some (tA', cA', subs') →
              (∀ p, p < ai → tA'.getD p none = tA.getD p none ∧
                cA'.getD p none = cA.getD p none) ∧
              (∀ p, ai ≤ p → p < bases.length →
                (bases.getD p 0 = -1 → tA'.getD p none = tA.getD p none ∧
                  cA'.getD p none = cA.getD p none) ∧
                (bases.getD p 0 ≠ -1 →
                  tA'.getD p none = some (sr.closest_event_T
                    (lookupCoord sr K rc (bases.getD p 0)), rc) ∧
                  cA'.getD p none = some (sr.closest_event_C
                    (lookupCoord sr K rc (bases.getD p 0)), !rc))) := by
            intro tA1 cA1 subs1 htA1 hcA1 h1
            have IH := ih (ai + 1) tA1 cA1 subs1 tA' cA' subs' h1 (by omega)
              (by rw [htA1, List.length_set]; exact htl)
              (by rw [hcA1, List.length_set]; exact hcl)
            constructor
            · intro p hp
              have h1 := (IH.1 p (by omega)).1
              have h2 := (IH.1 p (by omega)).2
              rw [htA1] at h1
              rw [hcA1] at h2
              rw [h1, h2, getD_set_lt tA ai p _ none hp,
                getD_set_lt cA ai p _ none hp]
              exact ⟨rfl, rfl⟩
            · intro p hp hplen
              rcases Nat.eq_or_lt_of_le hp with hpe | hpl
              · cases hpe
                refine ⟨fun hc => absurd hc hk, fun _ => ?_⟩
                have h1 := (IH.1 ai (by omega)).1
                have h2 := (IH.1 ai (by omega)).2
                rw [htA1] at h1
                rw [hcA1] at h2
                rw [h1, h2, getD_set_self tA ai _ none (by omega),
                  getD_set_self cA ai _ none (by omega)]
                exact ⟨rfl, rfl⟩
              · have IH2 := IH.2 p hpl hplen
                refine ⟨fun hc => ?_, fun hc => IH2.2 hc⟩
                have h1 := (IH2.1 hc).1
                have h2 := (IH2.1 hc).2
                rw [htA1] at h1
                rw [hcA1] at h2
                rw [h1, h2, getD_set_gt tA ai p _ none hpl,
                  getD_set_gt cA ai p _ none hpl]
                exact ⟨rfl, rfl⟩
          by_cases hlast : ai < bases.length - 1
          · rw [if_pos hlast] at h
            cases halt : altSubstring sr K rc (bases.getD ai 0)
                (bases.getD (ai + 1) 0) with
            | none => rw [halt] at h; exact absurd h (by simp)
            | some s =>
              rw [halt] at h
              exact hset _ _ _ rfl rfl h
          · rw [if_neg hlast] at h
            exact hset _ _ _ rfl rfl h
    · rw [if_neg hai] at h
      injection h with h
      injection h with h1 h
      injection h with h2 h3
      subst h1; subst h2
      exact ⟨fun p _ => ⟨rfl, rfl⟩, fun p hp hplen => absurd hplen (by omega)⟩

theorem mapReadFrom_subs (sr : SquiggleRead) (K : Nat) (rc : Bool)
    (bases : List Int) :
    ∀ (rem ai : Nat) (tA cA : List StrandAnchor) (subs : List (List (List Char)))
      (tA' cA' : List StrandAnchor) (subs' : List (List (List Char))),
    mapReadFrom sr K rc bases rem ai tA cA subs = some (tA', cA', subs') →
    bases.length ≤ ai + rem →
    ∀ q, (subs'.getD q []).length = (subs.getD q []).length +
      (if ai ≤ q ∧ q + 1 < bases.length ∧ bases.getD q 0 ≠ -1 then 1 else 0) := by
  intro rem
  induction rem with
  | zero =>
    intro ai tA cA subs tA' cA' subs' h hrem q
    simp only [mapReadFrom] at h
    injection h with h
    injection h with h1 h
    injection h with h2 h3
    subst h3
    rw [if_neg (by omega)]
    omega
  | succ m ih =>
    intro ai tA cA subs tA' cA' subs' h hrem q
    simp only [mapReadFrom] at h
    by_cases hai : ai < bases.length
    · rw [if_pos hai] at h
      by_cases hk : bases.getD ai 0 = -1
      · rw [if_pos hk] at h
        have IH := ih (ai + 1) tA cA subs tA' cA' subs' h (by omega) q
        rw [IH]
        congr 1
        by_cases hq : q = ai
        · subst hq
          rw [if_neg (by omega), if_neg (by tauto)]
        · by_cases hcond : ai + 1 ≤ q ∧ q + 1 < bases.length ∧ bases.getD q 0 ≠ -1
          · rw [if_pos hcond, if_pos ⟨by omega, hcond.2⟩]
          · rw [if_neg hcond, if_neg (fun hc => hcond ⟨by omega, hc.2⟩)]
      · rw [if_neg hk] at h
        by_cases hev : sr.closest_event_T (lookupCoord sr K rc (bases.getD ai 0)) = -1 ∨
            sr.closest_event_C (lookupCoord sr K rc (bases.getD ai 0)) = -1
        · rw [if_pos hev] at h; exact absurd h (by simp)
        · rw [if_neg hev] at h
          by_cases hlast : ai < bases.length - 1
          · rw [if_pos hlast] at h
            cases halt : altSubstring sr K rc (bases.getD ai 0)
                (bases.getD (ai + 1) 0) with
            | none => rw [halt] at h; exact absurd h (by simp)
            | some s =>
              rw [halt] at h
              have IH := ih (ai + 1) _ _ _ tA' cA' subs' h (by omega) q
              rw [IH, pushAt_getD]
              by_cases hq : q = ai
              · subst hq
                rw [if_pos rfl, if_neg (by omega), if_pos ⟨le_refl q, by omega, hk⟩]
                simp
              · rw [if_neg hq]
                congr 1
                by_cases hcond : ai + 1 ≤ q ∧ q + 1 < bases.length ∧
                    bases.getD q 0 ≠ -1
                · rw [if_pos hcond, if_pos ⟨by omega, hcond.2⟩]
                · rw [if_neg hcond, if_neg (fun hc => hcond ⟨by omega, hc.2⟩)]
          · rw [if_neg hlast] at h
            have IH := ih (ai + 1) _ _ _ tA' cA' subs' h (by omega) q
            rw [IH]
            congr 1
            by_cases hq : q = ai
            · subst hq
              rw [if_neg (by omega), if_neg (by omega)]
            · by_cases hcond : ai + 1 ≤ q ∧ q + 1 < bases.length ∧
                  bases.getD q 0 ≠ -1
              · rw [if_pos hcond, if_pos ⟨by omega, hcond.2⟩]
              · rw [if_neg hcond, if_neg (fun hc => hcond ⟨by omega, hc.2⟩)]
    · rw [if_neg hai] at h
      injection h with h
      injection h with h1 h
      injection h with h2 h3
      subst h3
      rw [if_neg (by omega)]
      omega

theorem mapReadFrom_subsLen (sr : SquiggleRead) (K : Nat) (rc : Bool)
    (bases : List Int) (M : Nat) :
    ∀ (rem ai : Nat) (tA cA : List StrandAnchor) (subs : List (List (List Char)))
      (tA' cA' : List StrandAnchor) (subs' : List (List (List Char))),
    mapReadFrom sr K rc bases rem ai tA cA subs = some (tA', cA', subs') →
    subs.length ≤ M →
    (∀ q, ai ≤ q → q + 1 < bases.length → bases.getD q 0 ≠ -1 → q < M) →
    subs'.length ≤ M := by
  intro rem
  induction rem with
  | zero =>
    intro ai tA cA subs tA' cA' subs' h hM hq
    simp only [mapReadFrom] at h
    injection h with h
    injection h with h1 h
    injection h with h2 h3
    subst h3; exact hM
  | succ m ih =>
    intro ai tA cA subs tA' cA' subs' h hM hq
    simp only [mapReadFrom] at h
    by_cases hai : ai < bases.length
    · rw [if_pos hai] at h
      by_cases hk : bases.getD ai 0 = -1
      · rw [if_pos hk] at h
        exact ih (ai + 1) tA cA subs tA' cA' subs' h hM
          (fun q h1 h2 h3 => hq q (by omega) h2 h3)
      · rw [if_neg hk] at h
        by_cases hev : sr.closest_event_T (lookupCoord sr K rc (bases.getD ai 0)) = -1 ∨
            sr.closest_event_C (lookupCoord sr K rc (bases.getD ai 0)) = -1
        · rw [if_pos hev] at h; exact absurd h (by simp)
        · rw [if_neg hev] at h
          by_cases hlast : ai < bases.length - 1
          · rw [if_pos hlast] at h
            cases halt : altSubstring sr K rc (bases.getD ai 0)
                (bases.getD (ai + 1) 0) with
            | none => rw [halt] at h; exact absurd h (by simp)
            | some s =>
              rw [halt] at h
              have hpush : (pushAt subs ai s).length ≤ M := by
                rw [pushAt_length]
                have : ai < M := hq ai (le_refl ai) (by omega) hk
                split <;> omega
              exact ih (ai + 1) _ _ _ tA' cA' subs' h hpush
                (fun q h1 h2 h3 => hq q (by omega) h2 h3)
          · rw [if_neg hlast] at h
            exact ih (ai + 1) _ _ _ tA' cA' subs' h hM
              (fun q h1 h2 h3 => hq q (by omega) h2 h3)
    · rw [if_neg hai] at h
      injection h with h
      injection h with h1 h
      injection h with h2 h3
      subst h3; exact hM

/-! ## C2: when an alternative sequence is emitted -/

/-- **C2 (counterexample).**  The claim states an alternative sequence is
emitted for the interval `[p, p+1)` iff the base coordinates at *both* `p`
and `p+1` are defined.  With anchor coordinates `[0, -1]` (position 1
unmapped), the source still emits one alternative sequence for the interval
starting at 0: it never checks `read_bases_for_anchors[ai + 1]`, the `-1`
merely flows into the (one-sidedly clamped) end coordinate. -/
theorem C2_counterexample :
    mapRead ⟨['A', 'C', 'G', 'T', 'A', 'C', 'G', 'T'],
        fun _ => 0, fun _ => 0⟩ 5 false [0, -1] [] =
      some ([some (0, false), none], [some (0, true), none],
        [[['A', 'C', 'G', 'T']]]) ∧
    ([0, -1] : List Int).getD 1 0 = -1 := by decide

/-- **C2 (amended).**  An alternative sequence is emitted for the interval
starting at position `p` iff the read's base coordinate at `p` is defined and
`p` is not the last sampled position — the coordinate at `p + 1` is *not*
required to be defined.  When the coordinate at `p` is undefined the anchors
at `p` on both strands stay unset and nothing is emitted for that
interval. -/
theorem C2_alt_emission (sr : SquiggleRead) (K : Nat) (rc : Bool)
    (bases : List Int) (subs : List (List (List Char)))
    (tA' cA' : List StrandAnchor) (subs' : List (List (List Char)))
    (h : mapRead sr K rc bases subs = some (tA', cA', subs')) :
    (∀ q, (subs'.getD q []).length = (subs.getD q []).length +
      (if q + 1 < bases.length ∧ bases.getD q 0 ≠ -1 then 1 else 0)) ∧
    (∀ p, p < bases.length → bases.getD p 0 = -1 →
      tA'.getD p none = none ∧ cA'.getD p none = none) := by
  unfold mapRead at h
  constructor
  · intro q
    have hq := mapReadFrom_subs sr K rc bases bases.length 0 _ _ subs
      tA' cA' subs' h (by omega) q
    rw [hq]
    congr 1
    by_cases hc : q + 1 < bases.length ∧ bases.getD q 0 ≠ -1
    · rw [if_pos ⟨by omega, hc⟩, if_pos hc]
    · rw [if_neg (fun hx => hc hx.2), if_neg hc]
  · intro p hp hdef
    have H := mapReadFrom_anchors sr K rc bases bases.length 0 _ _ subs
      tA' cA' subs' h (by omega) (by simp) (by simp)
    have hu := (H.2 p (by omega) hp).1 hdef
    rw [hu.1, hu.2, getD_replicate]
    exact ⟨rfl, rfl⟩

theorem C2_witness :
    ((([[['T', 'A', 'C']]] : List (List (List Char))).getD 0 []).length =
      (([] : List (List (List Char))).getD 0 []).length +
        (if 0 + 1 < ([3, -1] : List Int).length ∧
          ([3, -1] : List Int).getD 0 0 ≠ -1 then 1 else 0)) ∧
    (([some ((0 : Int), false), none] : List StrandAnchor).getD 1 none = none ∧
      ([some ((0 : Int), true), none] : List StrandAnchor).getD 1 none = none) := by
  have h : mapRead ⟨['A', 'C', 'G', 'T', 'A', 'C'], fun _ => 0, fun _ => 0⟩ 3
      false [3, -1] [] =
      some ([some (0, false), none], [some (0, true), none],
        [[['T', 'A', 'C']]]) := by
    decide
  have H := C2_alt_emission ⟨['A', 'C', 'G', 'T', 'A', 'C'],
    fun _ => 0, fun _ => 0⟩ 3 false [3, -1] [] _ _ _ h
  exact ⟨H.1 0, H.2 1 (by decide) (by decide)⟩

/-! ## C7: reverse-complement-aligned reads -/

/-- The rc leg of `altSubstring` is the reverse complement of the
forward-strand extraction applied to the flip-swapped coordinates. -/
theorem altSubstring_rc_eq (sr : SquiggleRead) (K : Nat) (a b : Int) :
    altSubstring sr K true a b =
      (altSubstring sr K false (flip_k_strand sr K b) (flip_k_strand sr K a)).map
        reverse_complement := by
  unfold altSubstring
  simp only [show (true = true) = True from by simp,
    show (false = true) = False from by simp, if_true, if_false]
  split
  · rfl
  · rfl

/-- **C7.**  For a read flagged reverse-complement aligned: every defined
base coordinate is passed through the coordinate flip before event lookup on
either strand; the template (primary) anchor's orientation flag equals the
read's reverse flag (`true`) and the complement anchor's flag is its
negation (`false`); and every alternative sequence equals the reverse
complement of the forward-strand extraction of the flip-swapped interval,
i.e. it is expressed in the reference's forward orientation. -/
theorem C7_reverse_strand (sr : SquiggleRead) (K : Nat) (bases : List Int)
    (subs : List (List (List Char))) (tA' cA' : List StrandAnchor)
    (subs' : List (List (List Char)))
    (h : mapRead sr K true bases subs = some (tA', cA', subs')) :
    (∀ p, p < bases.length → bases.getD p 0 ≠ -1 →
      tA'.getD p none =
        some (sr.closest_event_T (flip_k_strand sr K (bases.getD p 0)), true) ∧
      cA'.getD p none =
        some (sr.closest_event_C (flip_k_strand sr K (bases.getD p 0)), false)) ∧
    (∀ a b, altSubstring sr K true a b =
      (altSubstring sr K false (flip_k_strand sr K b) (flip_k_strand sr K a)).map
        reverse_complement) := by
  constructor
  · intro p hp hdef
    unfold mapRead at h
    have H := mapReadFrom_anchors sr K true bases bases.length 0 _ _ subs
      tA' cA' subs' h (by omega) (by simp) (by simp)
    have hd := (H.2 p (by omega) hp).2 hdef
    unfold lookupCoord at hd
    simpa using hd
  · intro a b
    exact altSubstring_rc_eq sr K a b

theorem C7_witness :
    ([some ((102 : Int), true), none] : List StrandAnchor).getD 0 none =
      some (102, true) ∧
    ([some ((202 : Int), false), none] : List StrandAnchor).getD 0 none =
      some (202, false) := by
  have h : mapRead ⟨['A', 'C', 'G', 'T', 'A', 'C', 'G', 'T'],
      fun k => k + 100, fun k => k + 200⟩ 5 true [1, -1] [] =
      some ([some (102, true), none], [some (202, false), none],
        [[['C', 'G', 'T']]]) := by decide
  have H := C7_reverse_strand ⟨['A', 'C', 'G', 'T', 'A', 'C', 'G', 'T'],
    fun k => k + 100, fun k => k + 200⟩ 5 [1, -1] [] _ _ _ h
  exact (H.1 0 (by decide) (by decide))

/-! ## Facts about the per-read loop of the Region Input Builder -/

theorem mapRead_length (sr : SquiggleRead) (K : Nat) (rc : Bool)
    (bases : List Int) (subs : List (List (List Char)))
    (tA' cA' : List StrandAnchor) (subs' : List (List (List Char)))
    (h : mapRead sr K rc bases subs = some (tA', cA', subs')) :
    tA'.length = bases.length ∧ cA'.length = bases.length := by
  unfold mapRead at h
  have H := mapReadFrom_length sr K rc bases bases.length 0 _ _ subs tA' cA' subs' h
  simpa using H

theorem processRecords_spec (K : Nat) (rstart rend stride : Int) :
    ∀ (recs : List BamRecord) (reads0 : List SquiggleRead)
      (ras0 : List HMMReadAnchorSet) (subs0 : List (List (List Char)))
      (reads : List SquiggleRead) (ras : List HMMReadAnchorSet)
      (subs : List (List (List Char))),
    processRecords K rstart rend stride recs reads0 ras0 subs0 =
      some (reads, ras, subs) →
    reads = reads0 ++ recs.map (fun r => r.sr) ∧
    ras.length = ras0.length + recs.length ∧
    (∀ r ∈ ras, r ∈ ras0 ∨
      (r.t_anchors.length = numAnchors rstart rend stride ∧
       r.c_anchors.length = numAnchors rstart rend stride)) := by
  intro recs
  induction recs with
  | nil =>
    intro reads0 ras0 subs0 reads ras subs h
    simp only [processRecords] at h
    injection h with h
    injection h with ha h
    injection h with hb hc
    subst ha; subst hb
    exact ⟨by simp, by simp, fun r hr => Or.inl hr⟩
  | cons rec rest ih =>
    intro reads0 ras0 subs0 reads ras subs h
    simp only [processRecords] at h
    cases hw : match_read_to_reference_anchors rec.pos rec.cigar rstart rend stride with
    | none => simp only [hw] at h; exact absurd h (by simp)
    | some bases =>
      simp only [hw] at h
      cases hm : mapRead rec.sr K rec.is_rev bases subs0 with
      | none => simp only [hm] at h; exact absurd h (by simp)
      | some t3 =>
        obtain ⟨tA, cA, subs1⟩ := t3
        simp only [hm] at h
        have IH := ih (reads0 ++ [rec.sr]) (ras0 ++ [⟨tA, cA⟩]) subs1 reads ras subs h
        refine ⟨?_, ?_, ?_⟩
        · rw [IH.1]; simp
        · rw [IH.2.1]
          simp only [List.length_append, List.length_cons, List.length_nil]
          omega
        · intro r hr
          rcases IH.2.2 r hr with hr0 | hlen
          · rcases List.mem_append.mp hr0 with h0 | h1
            · exact Or.inl h0
            · have hre : r = ⟨tA, cA⟩ := by simpa using h1
              subst hre
              right
              have hml := mapRead_length rec.sr K rec.is_rev bases subs0 tA cA subs1 hm
              have hbl := length_match_read rec.pos rec.cigar rstart rend stride bases hw
              exact ⟨by rw [← hbl]; exact hml.1, by rw [← hbl]; exact hml.2⟩
          · exact Or.inr hlen

theorem processRecords_subsLen (K : Nat) (rstart rend stride : Int) (M : Nat) :
    ∀ (recs : List BamRecord) (reads0 : List SquiggleRead)
      (ras0 : List HMMReadAnchorSet) (subs0 : List (List (List Char)))
      (reads : List SquiggleRead) (ras : List HMMReadAnchorSet)
      (subs : List (List (List Char))),
    processRecords K rstart rend stride recs reads0 ras0 subs0 =
      some (reads, ras, subs) →
    subs0.length ≤ M →
    (∀ rec ∈ recs, ∀ bases,
      match_read_to_reference_anchors rec.pos rec.cigar rstart rend stride =
        some bases →
      ∀ q, q + 1 < bases.length → bases.getD q 0 ≠ -1 → q < M) →
    subs.length ≤ M := by
  intro recs
  induction recs with
  | nil =>
    intro reads0 ras0 subs0 reads ras subs h hM _
    simp only [processRecords] at h
    injection h with h
    injection h with ha h
    injection h with hb hc
    subst hc; exact hM
  | cons rec rest ih =>
    intro reads0 ras0 subs0 reads ras subs h hM hrec
    simp only [processRecords] at h
    cases hw : match_read_to_reference_anchors rec.pos rec.cigar rstart rend stride with
    | none => simp only [hw] at h; exact absurd h (by simp)
    | some bases =>
      simp only [hw] at h
      cases hm : mapRead rec.sr K rec.is_rev bases subs0 with
      | none => simp only [hm] at h; exact absurd h (by simp)
      | some t3 =>
        obtain ⟨tA, cA, subs1⟩ := t3
        simp only [hm] at h
        have hsub1 : subs1.length ≤ M := by
          unfold mapRead at hm
          exact mapReadFrom_subsLen rec.sr K rec.is_rev bases M bases.length 0
            _ _ subs0 tA cA subs1 hm hM
            (fun q _ h2 h3 =>
              hrec rec (List.mem_cons_self rec rest) bases hw q h2 h3)
        exact ih (reads0 ++ [rec.sr]) (ras0 ++ [⟨tA, cA⟩]) subs1 reads ras subs h
          hsub1 (fun r hr => hrec r (List.mem_cons_of_mem rec hr))

/-! ## C8: zero overlapping records is fatal -/

/-- **C8.**  A successful region build implies the record set (and hence the
returned read set) is nonempty: with zero overlapping alignment records the
`assert(!read_anchors.empty())` fires (modelled as `none`) and no Region
Input with an empty read set is ever produced. -/
theorem C8_empty_region_fatal (K : Nat) (records : List BamRecord)
    (ref_segment : List Char) (rstart rend stride : Int)
    (ret : HMMRealignmentInput)
    (h : build_input_for_region K records ref_segment rstart rend stride =
      some ret) :
    records ≠ [] ∧ ret.reads ≠ [] := by
  simp only [build_input_for_region] at h
  cases hp : processRecords K rstart rend stride records [] [] [] with
  | none => simp only [hp] at h; exact absurd h (by simp)
  | some t3 =>
    obtain ⟨reads, ras, subs⟩ := t3
    simp only [hp] at h
    have HP := processRecords_spec K rstart rend stride records [] [] []
      reads ras subs hp
    cases hras : ras with
    | nil => simp only [hras] at h; exact absurd h (by simp)
    | cons first restA =>
      simp only [hras] at h
      have hrecne : records ≠ [] := by
        intro hrec
        subst hrec
        rw [hras] at HP
        simp at HP
      refine ⟨hrecne, ?_⟩
      have hreads : ret.reads = records.map (fun r => r.sr) := by
        split at h
        · cases hb : buildColumnsAux (first :: restA) subs ref_segment stride K
              first.t_anchors.length (List.range first.t_anchors.length) with
          | none => simp only [hb] at h; exact absurd h (by simp)
          | some cols =>
            simp only [hb] at h
            injection h with h
            subst h
            simpa using HP.1
        · exact absurd h (by simp)
      rw [hreads]
      intro hmap
      exact hrecne (List.map_eq_nil_iff.mp hmap)

/-- A tiny fully-matching region build used to witness the success-side
hypotheses of several theorems: one forward read `ACG` over region `[0, 2]`
with stride 1 and `K = 1`. -/
def c8sr : SquiggleRead := ⟨['A', 'C', 'G'], fun k => k, fun k => k⟩

def c8rec : BamRecord := ⟨c8sr, 0, [(CigarOp.M, 3)], false⟩

def c8ret : HMMRealignmentInput :=
  ⟨[c8sr],
   [⟨[some (0, false), some (0, true)], ['A', 'C'], [['A', 'C']]⟩,
    ⟨[some (1, false), some (1, true)], ['C', 'G'], [['C', 'G']]⟩,
    ⟨[some (2, false), some (2, true)], [], []⟩]⟩

theorem C8_witness : ([c8rec] : List BamRecord) ≠ [] ∧ c8ret.reads ≠ [] :=
  C8_empty_region_fatal 1 [c8rec] ['A', 'C', 'G'] 0 2 1 c8ret rfl

/-! ## Facts about the Column Transposer -/

theorem getD_eq_of_get?_eq_some {α : Type} : ∀ (l : List α) (i : Nat) (a d : α),
    l.get? i = some a → l.getD i d = a := by
  intro l
  induction l with
  | nil => intro i a d h; simp at h
  | cons x xs ih =>
    intro i a d h
    cases i with
    | zero => injection h
    | succ n => exact ih n a d (by simpa using h)

theorem columnAnchors_join : ∀ (ras : List HMMReadAnchorSet) (ai : Nat)
    (anchors : List StrandAnchor),
    columnAnchors ras ai = some anchors →
    anchors = (ras.map (fun r =>
      [r.t_anchors.getD ai none, r.c_anchors.getD ai none])).flatten := by
  intro ras
  induction ras with
  | nil =>
    intro ai anchors h
    simp only [columnAnchors] at h
    injection h with h
    simp [← h]
  | cons r rest ih =>
    intro ai anchors h
    simp only [columnAnchors] at h
    cases ht : r.t_anchors.get? ai with
    | none => rw [ht] at h; exact absurd h (by simp)
    | some t =>
      cases hc : r.c_anchors.get? ai with
      | none => rw [ht, hc] at h; exact absurd h (by simp)
      | some c =>
        rw [ht, hc] at h
        cases hrest : columnAnchors rest ai with
        | none => rw [hrest] at h; exact absurd h (by simp)
        | some l =>
          rw [hrest] at h
          injection h with h
          have hl := ih ai l hrest
          have htD := getD_eq_of_get?_eq_some r.t_anchors ai t none ht
          have hcD := getD_eq_of_get?_eq_some r.c_anchors ai c none hc
          simp only [List.map_cons, List.flatten, htD, hcD, ← h, hl]
          rfl

theorem columnAnchors_length : ∀ (ras : List HMMReadAnchorSet) (ai : Nat)
    (anchors : List StrandAnchor),
    columnAnchors ras ai = some anchors →
    anchors.length = 2 * ras.length := by
  intro ras
  induction ras with
  | nil =>
    intro ai anchors h
    simp only [columnAnchors] at h
    injection h with h
    simp [← h]
  | cons r rest ih =>
    intro ai anchors h
    simp only [columnAnchors] at h
    cases ht : r.t_anchors.get? ai with
    | none => rw [ht] at h; exact absurd h (by simp)
    | some t =>
      cases hc : r.c_anchors.get? ai with
      | none => rw [ht, hc] at h; exact absurd h (by simp)
      | some c =>
        rw [ht, hc] at h
        cases hrest : columnAnchors rest ai with
        | none => rw [hrest] at h; exact absurd h (by simp)
        | some l =>
          rw [hrest] at h
          injection h with h
          have := ih ai l hrest
          rw [← h]
          simp only [List.length_cons, this, List.length_cons]
          omega

theorem buildColumnsAux_length (ras : List HMMReadAnchorSet)
    (subs : List (List (List Char))) (ref_segment : List Char)
    (stride : Int) (K : Nat) (N : Nat) :
    ∀ (l : List Nat) (cs : List HMMAnchoredColumn),
    buildColumnsAux ras subs ref_segment stride K N l = some cs →
    cs.length = l.length := by
  intro l
  induction l with
  | nil =>
    intro cs h
    simp only [buildColumnsAux] at h
    injection h with h
    simp [← h]
  | cons ai rest ih =>
    intro cs h
    simp only [buildColumnsAux] at h
    cases hc : buildColumn ras subs ref_segment stride K N ai with
    | none => rw [hc] at h; exact absurd h (by simp)
    | some c =>
      rw [hc] at h
      cases hrest : buildColumnsAux ras subs ref_segment stride K N rest with
      | none => rw [hrest] at h; exact absurd h (by simp)
      | some cs1 =>
        rw [hrest] at h
        injection h with h
        rw [← h]
        simp [ih cs1 hrest]

theorem buildColumnsAux_getD (ras : List HMMReadAnchorSet)
    (subs : List (List (List Char))) (ref_segment : List Char)
    (stride : Int) (K : Nat) (N : Nat) :
    ∀ (l : List Nat) (cs : List HMMAnchoredColumn),
    buildColumnsAux ras subs ref_segment stride K N l = some cs →
    ∀ i, i < l.length →
      buildColumn ras subs ref_segment stride K N (l.getD i 0) =
        some (cs.getD i ⟨[], [], []⟩) := by
  intro l
  induction l with
  | nil =>
    intro cs h i hi
    simp at hi
  | cons ai rest ih =>
    intro cs h i hi
    simp only [buildColumnsAux] at h
    cases hc : buildColumn ras subs ref_segment stride K N ai with
    | none => rw [hc] at h; exact absurd h (by simp)
    | some c =>
      rw [hc] at h
      cases hrest : buildColumnsAux ras subs ref_segment stride K N rest with
      | none => rw [hrest] at h; exact absurd h (by simp)
      | some cs1 =>
        rw [hrest] at h
        injection h with h
        cases i with
        | zero => rw [← h]; exact hc
        | succ j =>
          have := ih cs1 hrest j (by simpa using hi)
          rw [← h]
          exact this

/-- Destructured content of a successful non-final column build. -/
theorem buildColumn_mid (ras : List HMMReadAnchorSet)
    (subs : List (List (List Char))) (ref_segment : List Char)
    (stride : Int) (K : Nat) (N ai : Nat) (c : HMMAnchoredColumn)
    (h : buildColumn ras subs ref_segment stride K N ai = some c)
    (hne : ai ≠ N - 1) :
    ∃ anchors alts, columnAnchors ras ai = some anchors ∧
      subs.get? ai = some alts ∧
      c = ⟨anchors,
        (ref_segment.drop ((ai : Int) * stride).toNat).take
          (if (ai : Int) * stride + (stride + (K : Int)) >
              (ref_segment.length : Int)
           then (ref_segment.length : Int) - (ai : Int) * stride
           else stride + (K : Int)).toNat,
        alts⟩ := by
  simp only [buildColumn] at h
  cases hca : columnAnchors ras ai with
  | none => simp only [hca] at h; exact absurd h (by simp)
  | some anchors =>
    simp only [hca] at h
    split at h
    · cases hsub : subs.get? ai with
      | none => simp only [hsub] at h; exact absurd h (by simp)
      | some alts =>
        simp only [hsub] at h
        injection h with h
        exact ⟨anchors, alts, rfl, rfl, h.symm⟩
    · next hcond => exact absurd hne hcond

/-- Destructured content of a successful final column build. -/
theorem buildColumn_last (ras : List HMMReadAnchorSet)
    (subs : List (List (List Char))) (ref_segment : List Char)
    (stride : Int) (K : Nat) (N : Nat) (c : HMMAnchoredColumn)
    (h : buildColumn ras subs ref_segment stride K N (N - 1) = some c) :
    ∃ anchors, columnAnchors ras (N - 1) = some anchors ∧
      c = ⟨anchors, [], []⟩ := by
  simp only [buildColumn] at h
  cases hca : columnAnchors ras (N - 1) with
  | none => simp only [hca] at h; exact absurd h (by simp)
  | some anchors =>
    simp only [hca] at h
    split at h
    · next hcond => exact absurd rfl hcond
    · injection h with h
      exact ⟨anchors, rfl, h.symm⟩

/-- Every successfully built column's anchor list is the (successful)
cross-read anchor transposition at its index. -/
theorem buildColumn_anchors (ras : List HMMReadAnchorSet)
    (subs : List (List (List Char))) (ref_segment : List Char)
    (stride : Int) (K : Nat) (N ai : Nat) (c : HMMAnchoredColumn)
    (h : buildColumn ras subs ref_segment stride K N ai = some c) :
    ∃ anchors, columnAnchors ras ai = some anchors ∧ c.anchors = anchors := by
  simp only [buildColumn] at h
  cases hca : columnAnchors ras ai with
  | none => simp only [hca] at h; exact absurd h (by simp)
  | some anchors =>
    simp only [hca] at h
    refine ⟨anchors, rfl, ?_⟩
    split at h
    · cases hsub : subs.get? ai with
      | none => simp only [hsub] at h; exact absurd h (by simp)
      | some alts =>
        simp only [hsub] at h
        injection h with h
        rw [← h]
    · injection h with h
      rw [← h]

theorem toNat_natCast (n : Nat) : ((n : Nat) : Int).toNat = n := rfl

theorem numAnchors_pred_mul_le (rstart rend stride : Int)
    (h1 : rstart ≤ rend) (h2 : 0 < stride) :
    (numAnchors rstart rend stride - 1) * stride.toNat ≤ (rend - rstart).toNat := by
  rw [numAnchors_eq_floor rstart rend stride h1 h2]
  simp only [Nat.add_sub_cancel]
  exact Nat.div_mul_le_self _ _

theorem range_getD (n i : Nat) (h : i < n) : (List.range n).getD i 0 = i :=
  getD_eq_of_get?_eq_some _ _ _ _ (List.get?_range h)

/-! ## C5: shape of the Column Transposer's output -/

/-- **C5.**  For a successful region build over a valid region whose
reference segment covers it: the output has exactly `N` anchored columns
(`N` the Cigar-Walker output length `numAnchors`); every column's cross-read
anchor list is the in-order concatenation, over the reads in processing
order, of the template-strand anchor followed by the complement-strand
anchor (hence has length `2 × number of reads`); the final column carries a
nonempty anchor list but empty sequence fields; and each of the first `N-1`
columns carries a nonempty reference sub-sequence. -/
theorem C5_column_shape (K : Nat) (records : List BamRecord)
    (ref_segment : List Char) (rstart rend stride : Int)
    (ret : HMMRealignmentInput) (reads : List SquiggleRead)
    (ras : List HMMReadAnchorSet) (subs : List (List (List Char)))
    (hb : build_input_for_region K records ref_segment rstart rend stride =
      some ret)
    (hp : processRecords K rstart rend stride records [] [] [] =
      some (reads, ras, subs))
    (h1 : rstart ≤ rend) (h2 : 0 < stride)
    (href : rend - rstart < (ref_segment.length : Int)) :
    ret.anchored_columns.length = numAnchors rstart rend stride ∧
    ret.reads.length = records.length ∧
    (∀ i, i < numAnchors rstart rend stride →
      (ret.anchored_columns.getD i ⟨[], [], []⟩).anchors =
        (ras.map (fun r =>
          [r.t_anchors.getD i none, r.c_anchors.getD i none])).flatten ∧
      (ret.anchored_columns.getD i ⟨[], [], []⟩).anchors.length =
        2 * ret.reads.length) ∧
    ((ret.anchored_columns.getD (numAnchors rstart rend stride - 1)
        ⟨[], [], []⟩).anchors ≠ [] ∧
      (ret.anchored_columns.getD (numAnchors rstart rend stride - 1)
        ⟨[], [], []⟩).base_sequence = [] ∧
      (ret.anchored_columns.getD (numAnchors rstart rend stride - 1)
        ⟨[], [], []⟩).alt_sequences = []) ∧
    (∀ i, i < numAnchors rstart rend stride - 1 →
      (ret.anchored_columns.getD i ⟨[], [], []⟩).base_sequence ≠ []) := by
  simp only [build_input_for_region] at hb
  simp only [hp] at hb
  have HP := processRecords_spec K rstart rend stride records [] [] []
    reads ras subs hp
  cases hras : ras with
  | nil => simp only [hras] at hb; exact absurd hb (by simp)
  | cons first restA =>
    simp only [hras] at hb
    have hfl : first.t_anchors.length = numAnchors rstart rend stride := by
      rcases HP.2.2 first (by rw [hras]; exact List.mem_cons_self first restA)
        with h0 | hl
      · simp at h0
      · exact hl.1
    have hraslen : restA.length + 1 = records.length := by
      have hh := HP.2.1
      rw [hras] at hh
      simp at hh
      omega
    have hreadslen : reads.length = records.length := by
      rw [HP.1]; simp
    split at hb
    · cases hcols : buildColumnsAux (first :: restA) subs ref_segment stride K
          first.t_anchors.length (List.range first.t_anchors.length) with
      | none => simp only [hcols] at hb; exact absurd hb (by simp)
      | some cols =>
        simp only [hcols] at hb
        injection hb with hb
        subst hb
        have hclen : cols.length = numAnchors rstart rend stride := by
          have := buildColumnsAux_length (first :: restA) subs ref_segment
            stride K first.t_anchors.length _ cols hcols
          rw [this, List.length_range, hfl]
        have hgetcol : ∀ i, i < numAnchors rstart rend stride →
            buildColumn (first :: restA) subs ref_segment stride K
              first.t_anchors.length i = some (cols.getD i ⟨[], [], []⟩) := by
          intro i hi
          have := buildColumnsAux_getD (first :: restA) subs ref_segment
            stride K first.t_anchors.length _ cols hcols i
            (by rw [List.length_range, hfl]; exact hi)
          rw [range_getD _ i (by rw [hfl]; exact hi)] at this
          exact this
        refine ⟨hclen, by simpa using hreadslen, ?_, ?_, ?_⟩
        · -- anchors of every column
          intro i hi
          obtain ⟨anchors, hca, hcanch⟩ := buildColumn_anchors _ _ _ _ _ _ _ _
            (hgetcol i hi)
          constructor
          · rw [hcanch, columnAnchors_join _ _ _ hca]
          · rw [hcanch, columnAnchors_length _ _ _ hca]
            simp only [List.length_cons]
            omega
        · -- the final column
          have hN1 : numAnchors rstart rend stride - 1 <
              numAnchors rstart rend stride := by
            have htd : 0 ≤ (rend - rstart).tdiv stride :=
              Int.tdiv_nonneg (by omega) (le_of_lt h2)
            unfold numAnchors
            omega
          have hcol := hgetcol (numAnchors rstart rend stride - 1) hN1
          rw [← hfl] at hcol
          obtain ⟨anchors, hca, hceq⟩ := buildColumn_last _ _ _ _ _ _ _ hcol
          have hlen2 := columnAnchors_length _ _ _ hca
          rw [hfl] at hceq
          have hanchne : anchors ≠ [] := by
            intro hnil
            rw [hnil] at hlen2
            simp at hlen2
          refine ⟨?_, ?_, ?_⟩
          · rw [hceq]
            exact hanchne
          · rw [hceq]
          · rw [hceq]
        · -- nonempty reference sub-sequences
          intro i hi
          have hiN : i < numAnchors rstart rend stride := by omega
          have hcol := hgetcol i hiN
          obtain ⟨anchors, alts, hca, hsub, hceq⟩ :=
            buildColumn_mid _ _ _ _ _ _ _ _ hcol (by rw [hfl]; omega)
          rw [hceq]
          obtain ⟨s, hs⟩ : ∃ s : Nat, stride = (s : Int) :=
            ⟨stride.toNat, (Int.toNat_of_nonneg (le_of_lt h2)).symm⟩
          have hspos : 0 < s := by
            rw [hs] at h2; exact_mod_cast h2
          have hstn : stride.toNat = s := by rw [hs]; rfl
          have hmul : (numAnchors rstart rend stride - 1) * s ≤
              (rend - rstart).toNat := by
            have hpre := numAnchors_pred_mul_le rstart rend stride h1 h2
            rw [hstn] at hpre
            exact hpre
          have hd : (rend - rstart).toNat < ref_segment.length := by omega
          have hisL : i * s + s ≤ (rend - rstart).toNat := by
            have hstep : (i + 1) * s ≤
                (numAnchors rstart rend stride - 1) * s :=
              Nat.mul_le_mul_right s (by omega)
            calc i * s + s = (i + 1) * s := by ring
            _ ≤ (numAnchors rstart rend stride - 1) * s := hstep
            _ ≤ (rend - rstart).toNat := hmul
          have hcast : ((i : Int) * stride).toNat = i * s := by
            rw [hs, ← Nat.cast_mul, toNat_natCast]
          show ((ref_segment.drop ((i : Int) * stride).toNat).take
            (if (i : Int) * stride + (stride + (K : Int)) >
                (ref_segment.length : Int)
             then (ref_segment.length : Int) - (i : Int) * stride
             else stride + (K : Int)).toNat) ≠ []
          intro hnil
          have hlen0 := congrArg List.length hnil
          rw [List.length_take, List.length_drop, hcast] at hlen0
          simp only [List.length_nil] at hlen0
          have hoff : i * s < ref_segment.length := by omega
          split at hlen0
          · -- truncated: length = ref_len - i*stride
            have hcast2 : ((ref_segment.length : Int) - (i : Int) * stride).toNat
                = ref_segment.length - i * s := by
              rw [hs, ← Nat.cast_mul]
              omega
            rw [hcast2] at hlen0
            omega
          · have hcast3 : (stride + (K : Int)).toNat = s + K := by
              rw [hs]
              omega
            rw [hcast3] at hlen0
            omega
    · exact absurd hb (by simp)

/-- The per-read anchor sets and substrings table the tiny `c8` build
produces. -/
def c8ras : List HMMReadAnchorSet :=
  [⟨[some (0, false), some (1, false), some (2, false)],
    [some (0, true), some (1, true), some (2, true)]⟩]

def c8subs : List (List (List Char)) := [[['A', 'C']], [['C', 'G']]]

theorem C5_witness : c8ret.anchored_columns.length = numAnchors 0 2 1 :=
  (C5_column_shape 1 [c8rec] ['A', 'C', 'G'] 0 2 1 c8ret [c8sr] c8ras c8subs
    rfl rfl (by decide) (by decide) (by decide)).1

/-! ## C9: the implicit precondition on the second-to-last position -/

theorem lt_length_of_get?_eq_some {α : Type} {l : List α} {i : Nat} {a : α}
    (h : l.get? i = some a) : i < l.length := by
  by_contra hge
  rw [List.get?_eq_none.mpr (by omega)] at h
  exact absurd h (by simp)

/-- **C9.**  The column-assembly loop indexes the per-interval
alternative-sequence table at every position `p < N-1` without a bounds
check, and the table only grows past an index when some read emits there;
hence a successful build with `N ≥ 2` sampled positions implies at least one
read has a defined base coordinate at the second-to-last sampled position
`N-2` (when every read is unmapped there, the table stays shorter than
`N-1` and the unchecked `read_substrings[N-2]` access is out of range — the
build faults, modelled as `none`). -/
theorem C9_substrings_bound (K : Nat) (records : List BamRecord)
    (ref_segment : List Char) (rstart rend stride : Int)
    (ret : HMMRealignmentInput)
    (hb : build_input_for_region K records ref_segment rstart rend stride =
      some ret)
    (hN : 2 ≤ numAnchors rstart rend stride) :
    ∃ rec ∈ records, ∃ bases,
      match_read_to_reference_anchors rec.pos rec.cigar rstart rend stride =
        some bases ∧
      bases.getD (numAnchors rstart rend stride - 2) 0 ≠ -1 := by
  by_contra hcon
  push_neg at hcon
  simp only [build_input_for_region] at hb
  cases hp : processRecords K rstart rend stride records [] [] [] with
  | none => simp only [hp] at hb; exact absurd hb (by simp)
  | some t3 =>
    obtain ⟨reads, ras, subs⟩ := t3
    simp only [hp] at hb
    have HP := processRecords_spec K rstart rend stride records [] [] []
      reads ras subs hp
    cases hras : ras with
    | nil => simp only [hras] at hb; exact absurd hb (by simp)
    | cons first restA =>
      simp only [hras] at hb
      have hfl : first.t_anchors.length = numAnchors rstart rend stride := by
        rcases HP.2.2 first (by rw [hras]; exact List.mem_cons_self first restA)
          with h0 | hl
        · simp at h0
        · exact hl.1
      split at hb
      · cases hcols : buildColumnsAux (first :: restA) subs ref_segment stride K
            first.t_anchors.length (List.range first.t_anchors.length) with
        | none => simp only [hcols] at hb; exact absurd hb (by simp)
        | some cols =>
          have hgN2 := buildColumnsAux_getD (first :: restA) subs ref_segment
            stride K first.t_anchors.length _ cols hcols
            (numAnchors rstart rend stride - 2)
            (by rw [List.length_range, hfl]; omega)
          rw [range_getD _ _ (by rw [hfl]; omega)] at hgN2
          obtain ⟨anchors, alts, hca, hsub, hceq⟩ :=
            buildColumn_mid _ _ _ _ _ _ _ _ hgN2 (by rw [hfl]; omega)
          have hlt : numAnchors rstart rend stride - 2 < subs.length :=
            lt_length_of_get?_eq_some hsub
          have hbound : subs.length ≤ numAnchors rstart rend stride - 2 := by
            refine processRecords_subsLen K rstart rend stride
              (numAnchors rstart rend stride - 2) records [] [] []
              reads ras subs hp (by simp) ?_
            intro rec hm bases hw q hq1 hqdef
            have hbl := length_match_read rec.pos rec.cigar rstart rend stride
              bases hw
            have hc := hcon rec hm bases hw
            by_contra hge
            have hqe : q = numAnchors rstart rend stride - 2 := by omega
            rw [hqe] at hqdef
            exact hqdef hc
          omega
      · exact absurd hb (by simp)

theorem C9_witness :
    ∃ rec ∈ ([c8rec] : List BamRecord), ∃ bases,
      match_read_to_reference_anchors rec.pos rec.cigar 0 2 1 = some bases ∧
      bases.getD (numAnchors 0 2 1 - 2) 0 ≠ -1 :=
  C9_substrings_bound 1 [c8rec] ['A', 'C', 'G'] 0 2 1 c8ret rfl (by decide)

/-! ## C6: reference sub-sequence offsets and the overlap length -/

/-- Reference segment for the C6 scenario: 26 distinct characters standing
for the fetch of region `[0, 25]`. -/
def c6ref : List Char :=
  ['A', 'B', 'C', 'D', 'E', 'F', 'G', 'H', 'I', 'J', 'K', 'L', 'M',
   'N', 'O', 'P', 'Q', 'R', 'S', 'T', 'U', 'V', 'W', 'X', 'Y', 'Z']

/-- A fully matching forward read over the same region. -/
def c6read : SquiggleRead :=
  ⟨['a', 'b', 'c', 'd', 'e', 'f', 'g', 'h', 'i', 'j', 'k', 'l', 'm',
    'n', 'o', 'p', 'q', 'r', 's', 't', 'u', 'v', 'w', 'x', 'y', 'z'],
   fun k => k, fun k => k⟩

def c6rec : BamRecord := ⟨c6read, 0, [(CigarOp.M, 26)], false⟩

/-- **C6 (code bug).**  Region `[0, 25]`, stride 10, `K = 5`, one fully
matching read: the columns' reference sub-sequences start at offsets
`p·stride` with length `stride + K` (`A..O` and `K..Y`), exactly as the
claim's first half (and the source) state.  Consequently consecutive
sub-sequences overlap by `K = 5` bases (`K..O`), *not* by
`window_size − 1 = 4` as the claim and the source's own comment ("these
sequences need to overlap by K - 1 bases", line 169) require: the last 4
bases of column 0 (`L,M,N,O`) differ from the first 4 of column 1
(`K,L,M,N`). -/
theorem C6_overlap_is_K :
    (build_input_for_region 5 [c6rec] c6ref 0 25 10).map
        (fun r => r.anchored_columns.map (fun c => c.base_sequence)) =
      some [['A', 'B', 'C', 'D', 'E', 'F', 'G', 'H', 'I', 'J', 'K', 'L', 'M',
             'N', 'O'],
            ['K', 'L', 'M', 'N', 'O', 'P', 'Q', 'R', 'S', 'T', 'U', 'V', 'W',
             'X', 'Y'],
            []] ∧
    List.drop 10 ['A', 'B', 'C', 'D', 'E', 'F', 'G', 'H', 'I', 'J', 'K', 'L',
      'M', 'N', 'O'] =
      List.take 5 ['K', 'L', 'M', 'N', 'O', 'P', 'Q', 'R', 'S', 'T', 'U', 'V',
        'W', 'X', 'Y'] ∧
    List.drop 11 ['A', 'B', 'C', 'D', 'E', 'F', 'G', 'H', 'I', 'J', 'K', 'L',
      'M', 'N', 'O'] ≠
      List.take 4 ['K', 'L', 'M', 'N', 'O', 'P', 'Q', 'R', 'S', 'T', 'U', 'V',
        'W', 'X', 'Y'] := by decide

/-! ## C10: monotone, write-once behaviour of the Cigar Walker

To express "each output slot is written at most once" the walk is
instrumented with a parallel write-count vector: `recordAnchorCount` bumps
the same slot that `recordAnchor` writes, under the same guard.  The
projection lemmas prove the instrumented walker computes exactly the source
walker's cursor and output states. -/

/-- Write-count instrumentation of `recordAnchor` (same guard, same slot). -/
def recordAnchorCount (rstart rend stride ref_inc read_pos ref_pos : Int)
    (counts : List Nat) : List Nat :=
  if rstart ≤ ref_pos ∧ ref_pos ≤ rend ∧ ref_pos % stride = 0 ∧ 0 < ref_inc then
    counts.set ((ref_pos - rstart).tdiv stride).toNat
      (counts.getD ((ref_pos - rstart).tdiv stride).toNat 0 + 1)
  else counts

def runCigarLenI (read_inc ref_inc rstart rend stride : Int) :
    Nat → Int → Int → List Int → List Nat → Int × Int × List Int × List Nat
  | 0, read_pos, ref_pos, out, counts => (read_pos, ref_pos, out, counts)
  | n + 1, read_pos, ref_pos, out, counts =>
      runCigarLenI read_inc ref_inc rstart rend stride n
        (read_pos + read_inc) (ref_pos + ref_inc)
        (recordAnchor rstart rend stride ref_inc read_pos ref_pos out)
        (recordAnchorCount rstart rend stride ref_inc read_pos ref_pos counts)

def walkCigarI (rstart rend stride : Int) :
    List (CigarOp × Nat) → Int → Int → List Int → List Nat →
    Option (List Int × List Nat)
  | [], _, _, out, counts => some (out, counts)
  | (op, len) :: rest, read_pos, ref_pos, out, counts =>
      if ref_pos ≤ rend then
        match cigarIncs op with
        | none => none
        | some (read_inc, ref_inc) =>
            let s := runCigarLenI read_inc ref_inc rstart rend stride len
              read_pos ref_pos out counts
            walkCigarI rstart rend stride rest s.1 s.2.1 s.2.2.1 s.2.2.2
      else some (out, counts)

def match_readI (pos : Int) (cigar : List (CigarOp × Nat))
    (rstart rend stride : Int) : Option (List Int × List Nat) :=
  walkCigarI rstart rend stride cigar 0 pos
    (List.replicate (numAnchors rstart rend stride) (-1))
    (List.replicate (numAnchors rstart rend stride) 0)

theorem runCigarLenI_proj (read_inc ref_inc rstart rend stride : Int) :
    ∀ (n : Nat) (rp fp : Int) (out : List Int) (counts : List Nat),
    ((runCigarLenI read_inc ref_inc rstart rend stride n rp fp out counts).1,
     (runCigarLenI read_inc ref_inc rstart rend stride n rp fp out counts).2.1,
     (runCigarLenI read_inc ref_inc rstart rend stride n rp fp out counts).2.2.1) =
      runCigarLen read_inc ref_inc rstart rend stride n rp fp out := by
  intro n
  induction n with
  | zero => intro rp fp out counts; rfl
  | succ m ih =>
    intro rp fp out counts
    rw [runCigarLenI, runCigarLen]
    exact ih (rp + read_inc) (fp + ref_inc) _ _

theorem walkCigarI_proj (rstart rend stride : Int) :
    ∀ (cigar : List (CigarOp × Nat)) (rp fp : Int) (out : List Int)
      (counts : List Nat) (out' : List Int) (counts' : List Nat),
    walkCigarI rstart rend stride cigar rp fp out counts = some (out', counts') →
    walkCigar rstart rend stride cigar rp fp out = some out' := by
  intro cigar
  induction cigar with
  | nil =>
    intro rp fp out counts out' counts' h
    simp only [walkCigarI] at h
    injection h with h
    injection h with h1 h2
    simp only [walkCigar]
    rw [h1]
  | cons hd rest ih =>
    intro rp fp out counts out' counts' h
    obtain ⟨op, len⟩ := hd
    simp only [walkCigarI] at h
    simp only [walkCigar]
    by_cases hle : fp ≤ rend
    · rw [if_pos hle] at h
      rw [if_pos hle]
      cases hop : cigarIncs op with
      | none => simp only [hop] at h; exact absurd h (by simp)
      | some p =>
        obtain ⟨read_inc, ref_inc⟩ := p
        simp only [hop] at h
        simp only
        have hsp := runCigarLenI_proj read_inc ref_inc rstart rend stride len
          rp fp out counts
        have e1 : (runCigarLen read_inc ref_inc rstart rend stride len rp fp out).1
            = (runCigarLenI read_inc ref_inc rstart rend stride len rp fp out counts).1 := by
          rw [← hsp]
        have e2 : (runCigarLen read_inc ref_inc rstart rend stride len rp fp out).2.1
            = (runCigarLenI read_inc ref_inc rstart rend stride len rp fp out counts).2.1 := by
          rw [← hsp]
        have e3 : (runCigarLen read_inc ref_inc rstart rend stride len rp fp out).2.2
            = (runCigarLenI read_inc ref_inc rstart rend stride len rp fp out counts).2.2.1 := by
          rw [← hsp]
        rw [e1, e2, e3]
        exact ih _ _ _ _ _ _ h
    · rw [if_neg hle] at h
      rw [if_neg hle]
      injection h with h
      injection h with h1 h2
      rw [h1]

theorem cigarIncs_nonneg : ∀ (op : CigarOp) (ri fi : Int),
    cigarIncs op = some (ri, fi) → 0 ≤ ri ∧ 0 ≤ fi := by
  intro op ri fi h
  cases op
  case P => exact absurd h (by simp [cigarIncs])
  all_goals (injection h with h; injection h with h1 h2; omega)

/-- Strictly increasing stride multiples map to strictly increasing output
slots. -/
theorem slot_lt (rstart stride m1 m2 : Int) (hs : 0 < stride)
    (h1 : stride ∣ m1) (h2 : stride ∣ m2) (hr1 : rstart ≤ m1) (hlt : m1 < m2) :
    ((m1 - rstart).tdiv stride).toNat < ((m2 - rstart).tdiv stride).toNat := by
  have hd : stride ∣ (m2 - m1) := Int.dvd_sub h2 h1
  have hge : stride ≤ m2 - m1 := Int.le_of_dvd (by omega) hd
  have ha1 : (0 : Int) ≤ m1 - rstart := by omega
  have ha2 : (0 : Int) ≤ m2 - rstart := by omega
  rw [Int.tdiv_eq_ediv ha1 (le_of_lt hs), Int.tdiv_eq_ediv ha2 (le_of_lt hs)]
  have hpos : 0 < (m2 - rstart) / stride := by
    have h11 : stride / stride ≤ (m2 - rstart) / stride :=
      Int.ediv_le_ediv hs (by omega)
    rw [Int.ediv_self (by omega)] at h11
    omega
  rw [Int.toNat_lt_toNat hpos]
  have key : (m1 - rstart) / stride + 1 ≤ (m2 - rstart) / stride := by
    have h12 : ((m1 - rstart) + 1 * stride) / stride ≤ (m2 - rstart) / stride :=
      Int.ediv_le_ediv hs (by omega)
    rwa [Int.add_mul_ediv_right _ _ (by omega)] at h12
  omega

/-- Invariant of the instrumented walk: the read cursor is nonnegative;
every defined slot is nonnegative, bounded by the read cursor, and
corresponds to a stride multiple inside the region that the reference
cursor has already passed; defined slots are pairwise monotone; and a
slot's write count is 1 exactly when it is defined, 0 otherwise. -/
def WalkInv (rstart rend stride read_pos ref_pos : Int)
    (out : List Int) (counts : List Nat) : Prop :=
  0 ≤ read_pos ∧
  counts.length = out.length ∧
  (∀ j, j < out.length → out.getD j (-1) ≠ -1 →
    0 ≤ out.getD j (-1) ∧ out.getD j (-1) ≤ read_pos ∧
    ∃ m : Int, stride ∣ m ∧ rstart ≤ m ∧ m ≤ rend ∧
      ((m - rstart).tdiv stride).toNat = j ∧ m < ref_pos) ∧
  (∀ i j, i < j → j < out.length → out.getD i (-1) ≠ -1 →
    out.getD j (-1) ≠ -1 → out.getD i (-1) ≤ out.getD j (-1)) ∧
  (∀ j, j < out.length →
    counts.getD j 0 = if out.getD j (-1) = -1 then 0 else 1)

theorem WalkInv_step (rstart rend stride read_inc ref_inc read_pos ref_pos : Int)
    (out : List Int) (counts : List Nat) (hs : 0 < stride)
    (hri : 0 ≤ read_inc) (hfi : 0 ≤ ref_inc)
    (h : WalkInv rstart rend stride read_pos ref_pos out counts) :
    WalkInv rstart rend stride (read_pos + read_inc) (ref_pos + ref_inc)
      (recordAnchor rstart rend stride ref_inc read_pos ref_pos out)
      (recordAnchorCount rstart rend stride ref_inc read_pos ref_pos counts) := by
  obtain ⟨hrp, hcl, hI3, hI4, hI5⟩ := h
  unfold recordAnchor recordAnchorCount
  by_cases hg : rstart ≤ ref_pos ∧ ref_pos ≤ rend ∧ ref_pos % stride = 0 ∧
      0 < ref_inc
  · rw [if_pos hg, if_pos hg]
    have hdvd : stride ∣ ref_pos := Int.dvd_of_emod_eq_zero hg.2.2.1
    have hjk : ∀ j, j < out.length → out.getD j (-1) ≠ -1 →
        j < ((ref_pos - rstart).tdiv stride).toNat := by
      intro j hj hdef
      obtain ⟨_, _, m, hm1, hm2, hm3, hm4, hm5⟩ := hI3 j hj hdef
      rw [← hm4]
      exact slot_lt rstart stride m ref_pos hs hm1 hdvd hm2 hm5
    have hkundef : ((ref_pos - rstart).tdiv stride).toNat < out.length →
        out.getD ((ref_pos - rstart).tdiv stride).toNat (-1) = -1 := by
      intro hkl
      by_contra hdef
      exact absurd (hjk _ hkl hdef) (lt_irrefl _)
    refine ⟨by omega, ?_, ?_, ?_, ?_⟩
    · rw [List.length_set, List.length_set, hcl]
    · intro j hj hdef
      rw [List.length_set] at hj
      by_cases hjeq : j = ((ref_pos - rstart).tdiv stride).toNat
      · subst hjeq
        rw [getD_set_self _ _ _ _ hj] at hdef ⊢
        exact ⟨hrp, by omega, ref_pos, hdvd, hg.1, hg.2.1, rfl, by omega⟩
      · rw [getD_set_ne _ _ _ _ _ (fun he => hjeq he.symm)] at hdef ⊢
        obtain ⟨hv1, hv2, m, hm1, hm2, hm3, hm4, hm5⟩ := hI3 j hj hdef
        exact ⟨hv1, by omega, m, hm1, hm2, hm3, hm4, by omega⟩
    · intro i j hij hj hdefi hdefj
      rw [List.length_set] at hj
      by_cases hjeq : j = ((ref_pos - rstart).tdiv stride).toNat
      · subst hjeq
        have hine : i ≠ ((ref_pos - rstart).tdiv stride).toNat := by omega
        rw [getD_set_ne _ _ _ _ _ (fun he => hine he.symm)] at hdefi ⊢
        rw [getD_set_self _ _ _ _ hj]
        exact (hI3 i (by omega) hdefi).2.1
      · by_cases hieq : i = ((ref_pos - rstart).tdiv stride).toNat
        · exfalso
          rw [getD_set_ne _ _ _ _ _ (fun he => hjeq he.symm)] at hdefj
          have := hjk j hj hdefj
          omega
        · rw [getD_set_ne _ _ _ _ _ (fun he => hieq he.symm)] at hdefi ⊢
          rw [getD_set_ne _ _ _ _ _ (fun he => hjeq he.symm)] at hdefj ⊢
          exact hI4 i j hij hj hdefi hdefj
    · intro j hj
      rw [List.length_set] at hj
      by_cases hjeq : j = ((ref_pos - rstart).tdiv stride).toNat
      · subst hjeq
        rw [getD_set_self _ _ _ _ hj,
          getD_set_self _ _ _ _ (by rw [hcl]; exact hj)]
        rw [if_neg (by omega)]
        have hck := hI5 _ hj
        rw [hkundef hj] at hck
        rw [hck, if_pos rfl]
      · rw [getD_set_ne _ _ _ _ _ (fun he => hjeq he.symm),
          getD_set_ne _ _ _ _ _ (fun he => hjeq he.symm)]
        exact hI5 j hj
  · rw [if_neg hg, if_neg hg]
    refine ⟨by omega, hcl, ?_, hI4, hI5⟩
    intro j hj hdef
    obtain ⟨h1, h2, m, hm1, hm2, hm3, hm4, hm5⟩ := hI3 j hj hdef
    exact ⟨h1, by omega, m, hm1, hm2, hm3, hm4, by omega⟩

theorem runCigarLenI_inv (rstart rend stride read_inc ref_inc : Int)
    (hs : 0 < stride) (hri : 0 ≤ read_inc) (hfi : 0 ≤ ref_inc) :
    ∀ (n : Nat) (rp fp : Int) (out : List Int) (counts : List Nat),
    WalkInv rstart rend stride rp fp out counts →
    WalkInv rstart rend stride
      (runCigarLenI read_inc ref_inc rstart rend stride n rp fp out counts).1
      (runCigarLenI read_inc ref_inc rstart rend stride n rp fp out counts).2.1
      (runCigarLenI read_inc ref_inc rstart rend stride n rp fp out counts).2.2.1
      (runCigarLenI read_inc ref_inc rstart rend stride n rp fp out counts).2.2.2 := by
  intro n
  induction n with
  | zero => intro rp fp out counts hinv; exact hinv
  | succ m ih =>
    intro rp fp out counts hinv
    rw [runCigarLenI]
    exact ih (rp + read_inc) (fp + ref_inc) _ _
      (WalkInv_step rstart rend stride read_inc ref_inc rp fp out counts
        hs hri hfi hinv)

theorem walkCigarI_inv (rstart rend stride : Int) (hs : 0 < stride) :
    ∀ (cigar : List (CigarOp × Nat)) (rp fp : Int) (out : List Int)
      (counts : List Nat) (out' : List Int) (counts' : List Nat),
    walkCigarI rstart rend stride cigar rp fp out counts = some (out', counts') →
    WalkInv rstart rend stride rp fp out counts →
    ∃ rp' fp', WalkInv rstart rend stride rp' fp' out' counts' := by
  intro cigar
  induction cigar with
  | nil =>
    intro rp fp out counts out' counts' h hinv
    simp only [walkCigarI] at h
    injection h with h
    injection h with h1 h2
    subst h1; subst h2
    exact ⟨rp, fp, hinv⟩
  | cons hd rest ih =>
    intro rp fp out counts out' counts' h hinv
    obtain ⟨op, len⟩ := hd
    simp only [walkCigarI] at h
    by_cases hle : fp ≤ rend
    · rw [if_pos hle] at h
      cases hop : cigarIncs op with
      | none => simp only [hop] at h; exact absurd h (by simp)
      | some p =>
        obtain ⟨read_inc, ref_inc⟩ := p
        simp only [hop] at h
        obtain ⟨hri, hfi⟩ := cigarIncs_nonneg op read_inc ref_inc hop
        exact ih _ _ _ _ _ _ h
          (runCigarLenI_inv rstart rend stride read_inc ref_inc hs hri hfi
            len rp fp out counts hinv)
    · rw [if_neg hle] at h
      injection h with h
      injection h with h1 h2
      subst h1; subst h2
      exact ⟨rp, fp, hinv⟩

/-- **C10.**  For every alignment record, valid stride and region: the
defined (non-`-1`) entries of the Cigar Walker's output, read in increasing
slot order, form a non-decreasing sequence of non-negative read-base
coordinates, and each output slot is written at most once during the walk
(every slot's write count in the instrumented walk, which computes exactly
the source walker's output, is at most 1). -/
theorem C10_monotone_write_once (pos : Int) (cigar : List (CigarOp × Nat))
    (rstart rend stride : Int) (out : List Int) (counts : List Nat)
    (h : match_readI pos cigar rstart rend stride = some (out, counts))
    (hs : 0 < stride) :
    match_read_to_reference_anchors pos cigar rstart rend stride = some out ∧
    (∀ i j, i < j → j < out.length → out.getD i (-1) ≠ -1 →
      out.getD j (-1) ≠ -1 →
      0 ≤ out.getD i (-1) ∧ out.getD i (-1) ≤ out.getD j (-1)) ∧
    (∀ c ∈ counts, c ≤ 1) := by
  unfold match_readI at h
  have hproj : match_read_to_reference_anchors pos cigar rstart rend stride =
      some out := by
    unfold match_read_to_reference_anchors
    exact walkCigarI_proj rstart rend stride cigar 0 pos _ _ out counts h
  have hinv0 : WalkInv rstart rend stride 0 pos
      (List.replicate (numAnchors rstart rend stride) (-1))
      (List.replicate (numAnchors rstart rend stride) 0) := by
    refine ⟨le_refl 0, by simp, ?_, ?_, ?_⟩
    · intro j hj hdef
      rw [getD_replicate] at hdef
      exact absurd rfl hdef
    · intro i j hij hj hdefi hdefj
      rw [getD_replicate] at hdefj
      exact absurd rfl hdefj
    · intro j hj
      rw [getD_replicate, getD_replicate, if_pos rfl]
  obtain ⟨rp', fp', hinv⟩ := walkCigarI_inv rstart rend stride hs cigar 0 pos
    _ _ out counts h hinv0
  refine ⟨hproj, ?_, ?_⟩
  · intro i j hij hj hdefi hdefj
    exact ⟨(hinv.2.2.1 i (by omega) hdefi).1,
      hinv.2.2.2.1 i j hij hj hdefi hdefj⟩
  · intro c hc
    obtain ⟨idx, hidx⟩ := List.mem_iff_get?.mp hc
    have hlt := lt_length_of_get?_eq_some hidx
    have hgd := getD_eq_of_get?_eq_some _ _ _ 0 hidx
    have hI5 := hinv.2.2.2.2 idx (by rw [← hinv.2.1]; exact hlt)
    rw [hgd] at hI5
    split at hI5 <;> omega

theorem C10_witness :
    match_read_to_reference_anchors 0 [(CigarOp.M, 4)] 0 3 2 = some [0, 2] ∧
    (∀ i j, i < j → j < ([0, 2] : List Int).length →
      ([0, 2] : List Int).getD i (-1) ≠ -1 →
      ([0, 2] : List Int).getD j (-1) ≠ -1 →
      0 ≤ ([0, 2] : List Int).getD i (-1) ∧
        ([0, 2] : List Int).getD i (-1) ≤ ([0, 2] : List Int).getD j (-1)) ∧
    (∀ c ∈ ([1, 1] : List Nat), c ≤ 1) :=
  C10_monotone_write_once 0 [(CigarOp.M, 4)] 0 3 2 [0, 2] [1, 1]
    (by decide) (by decide)

end Nanopolish
